import Mathlib

/-!
Verification of the exact-rational polynomial reconstruction engine
(Shamir secret-sharing reconstructor) of this repository.

The definitions below are a shallow embedding of the JavaScript sources
`Problem.js` (Lagrange-at-zero, subset voting, `--pick` handling) and the
substitution solver (`Frac` with `add/sub/mul/div`, `powBI`, `vandermondeRow`,
`solveFracSystem`, `kCombinations`, `solveBySubstitution`).  JavaScript
`BigInt` is modelled as `ℤ`, thrown errors as `Except Err`.
-/

set_option maxHeartbeats 1000000

/-- The error conditions raised by the sources (`throw new Error(...)`),
modelled as a closed enumeration. -/
inductive Err where
  | divisionByZero
  | nonIntegerResult
  | singularMatrix
  | noConsistentSubset
  | wrongSubsetSize
  | unknownKey
  deriving DecidableEq, Repr

deriving instance DecidableEq for Except

/-- `absBI` from the sources: `a < 0n ? -a : a`. -/
def absBI (a : ℤ) : ℤ := if a < 0 then -a else a

/-- The Euclidean loop of `gcdBI` (`while (b !== 0n) { [a, b] = [b, a % b] }`),
expressed on the (non-negative) magnitudes with a structural fuel bound;
`b` strictly decreases each iteration, so `b` itself is enough fuel. -/
def euclidFuel : ℕ → ℕ → ℕ → ℕ
  | 0, a, _ => a
  | fuel + 1, a, b => if b = 0 then a else euclidFuel fuel b (a % b)

def euclid (a b : ℕ) : ℕ := euclidFuel b a b

/-- `gcdBI` from the sources: take absolute values, then run the Euclidean loop. -/
def gcdBI (a b : ℤ) : ℤ := (euclid (absBI a).toNat (absBI b).toNat : ℕ)

theorem absBI_eq_abs (a : ℤ) : absBI a = |a| := by
  rw [absBI]
  split
  · rw [abs_of_neg (by assumption)]
  · rw [abs_of_nonneg (not_lt.mp (by assumption))]

theorem absBI_toNat (a : ℤ) : (absBI a).toNat = a.natAbs := by
  rw [absBI_eq_abs, Int.abs_eq_natAbs, Int.toNat_natCast]

theorem euclidFuel_eq_gcd : ∀ (fuel b : ℕ), b ≤ fuel → ∀ a, euclidFuel fuel a b = Nat.gcd a b := by
  intro fuel
  induction fuel with
  | zero =>
    intro b hb a
    have hb0 : b = 0 := by omega
    subst hb0
    rw [euclidFuel, Nat.gcd_zero_right]
  | succ fuel ih =>
    intro b hb a
    rw [euclidFuel]
    split
    · rename_i h
      subst h
      rw [Nat.gcd_zero_right]
    · rename_i h
      have hlt : a % b < b := Nat.mod_lt _ (Nat.pos_of_ne_zero h)
      rw [ih (a % b) (by omega) b, Nat.gcd_comm b (a % b),
        Nat.gcd_comm a b, Nat.gcd_rec b a]

theorem euclid_eq_gcd : ∀ b a : ℕ, euclid a b = Nat.gcd a b := by
  intro b a
  exact euclidFuel_eq_gcd b b (le_refl b) a

theorem gcdBI_eq (a b : ℤ) : gcdBI a b = (Int.gcd a b : ℤ) := by
  rw [gcdBI, absBI_toNat, absBI_toNat, euclid_eq_gcd]
  rfl

theorem gcdBI_absBI (a b : ℤ) : gcdBI (absBI a) b = (Int.gcd a b : ℤ) := by
  rw [gcdBI_eq]
  simp [absBI_eq_abs, Int.gcd, Int.natAbs_abs]

/-- A fraction as stored by the `Frac` class.  The JavaScript constructor
guarantees that every constructed instance has a strictly positive denominator
and is in lowest terms; this embedding records those two facts as proof
fields so that the arithmetic methods (which always go through the
constructor) are total except where the source itself throws. -/
structure Frac where
  n : ℤ
  d : ℤ
  pos : 0 < d
  red : Int.gcd n d = 1

theorem Frac.ext {a b : Frac} (hn : a.n = b.n) (hd : a.d = b.d) : a = b := by
  cases a
  cases b
  simp only at hn hd
  subst hn
  subst hd
  rfl

/-- Sign-normalized numerator from the `Frac` constructor (`if (d < 0) n = -n`). -/
def ctorNum (num den : ℤ) : ℤ := if den < 0 then -num else num

/-- Sign-normalized denominator from the `Frac` constructor (`if (d < 0) d = -d`). -/
def ctorDen (num den : ℤ) : ℤ := if den < 0 then -den else den

theorem ctorDen_pos (num den : ℤ) (h : den ≠ 0) : 0 < ctorDen num den := by
  rw [ctorDen]
  split
  · omega
  · omega

theorem ediv_gcd_pos (n d : ℤ) (hd : 0 < d) : 0 < d / (Int.gcd n d : ℤ) := by
  have hg : 0 < (Int.gcd n d : ℤ) := by
    exact_mod_cast Int.gcd_pos_iff.mpr (Or.inr hd.ne')
  obtain ⟨q, hq⟩ := (Int.gcd_dvd_right : (Int.gcd n d : ℤ) ∣ d)
  revert hq hd
  generalize (Int.gcd n d : ℤ) = g at hg ⊢
  intro hd hq
  subst hq
  rw [Int.mul_ediv_cancel_left _ hg.ne']
  nlinarith

theorem gcd_ediv_ediv (n d : ℤ) (hd : d ≠ 0) :
    Int.gcd (n / (Int.gcd n d : ℤ)) (d / (Int.gcd n d : ℤ)) = 1 := by
  refine Int.gcd_div_gcd_div_gcd (Nat.pos_of_ne_zero (fun h => hd ?_))
  exact Int.natAbs_eq_zero.mp (Nat.eq_zero_of_gcd_eq_zero_right h)

/-- The normalizing `Frac` constructor body, run when the denominator is
nonzero: flip signs so the denominator is positive, then divide both parts by
their gcd. -/
def fracNorm (num den : ℤ) (hden : den ≠ 0) : Frac where
  n := ctorNum num den / gcdBI (absBI (ctorNum num den)) (ctorDen num den)
  d := ctorDen num den / gcdBI (absBI (ctorNum num den)) (ctorDen num den)
  pos := by
    rw [gcdBI_absBI]
    exact ediv_gcd_pos _ _ (ctorDen_pos num den hden)
  red := by
    rw [gcdBI_absBI]
    exact gcd_ediv_ediv _ _ (ctorDen_pos num den hden).ne'

/-- The full `Frac` constructor: throws `Division by zero` on a zero
denominator, otherwise normalizes. -/
def fracMk (num den : ℤ) : Except Err Frac :=
  if h : den = 0 then .error .divisionByZero else .ok (fracNorm num den h)

def Frac.fromBI (x : ℤ) : Frac := fracNorm x 1 one_ne_zero

def Frac.add (a b : Frac) : Frac :=
  fracNorm (a.n * b.d + b.n * a.d) (a.d * b.d) (mul_ne_zero a.pos.ne' b.pos.ne')

def Frac.sub (a b : Frac) : Frac :=
  fracNorm (a.n * b.d - b.n * a.d) (a.d * b.d) (mul_ne_zero a.pos.ne' b.pos.ne')

def Frac.mul (a b : Frac) : Frac :=
  fracNorm (a.n * b.n) (a.d * b.d) (mul_ne_zero a.pos.ne' b.pos.ne')

/-- Division body used once the `o.n === 0n` check has passed. -/
def Frac.divP (a b : Frac) (h : b.n ≠ 0) : Frac :=
  fracNorm (a.n * b.d) (a.d * b.n) (mul_ne_zero a.pos.ne' h)

/-- `Frac.div` of the substitution solver: throws `Division by zero` when the
divisor's numerator is zero. -/
def Frac.div (a b : Frac) : Except Err Frac :=
  if h : b.n = 0 then .error .divisionByZero else .ok (a.divP b h)

def Frac.isInt (f : Frac) : Bool := f.d = 1

/-- Rational value denoted by a stored fraction. -/
def Frac.toRat (f : Frac) : ℚ := (f.n : ℚ) / (f.d : ℚ)

theorem cast_ediv_of_dvd (a b : ℤ) (h : b ∣ a) (hb : b ≠ 0) :
    ((a / b : ℤ) : ℚ) = (a : ℚ) / (b : ℚ) := by
  obtain ⟨q, rfl⟩ := h
  rw [Int.mul_ediv_cancel_left _ hb]
  have hbq : (b : ℚ) ≠ 0 := Int.cast_ne_zero.mpr hb
  push_cast
  field_simp

theorem ctor_ratio (num den : ℤ) :
    ((ctorNum num den : ℤ) : ℚ) / ((ctorDen num den : ℤ) : ℚ) = (num : ℚ) / (den : ℚ) := by
  rw [ctorNum, ctorDen]
  split
  · push_cast
    rw [neg_div_neg_eq]
  · rfl

theorem toRat_fracNorm (num den : ℤ) (h : den ≠ 0) :
    (fracNorm num den h).toRat = (num : ℚ) / (den : ℚ) := by
  have hd1 : 0 < ctorDen num den := ctorDen_pos num den h
  have hg : 0 < (Int.gcd (ctorNum num den) (ctorDen num den) : ℤ) := by
    exact_mod_cast Int.gcd_pos_iff.mpr (Or.inr hd1.ne')
  rw [Frac.toRat]
  show ((ctorNum num den / gcdBI (absBI (ctorNum num den)) (ctorDen num den) : ℤ) : ℚ) /
      ((ctorDen num den / gcdBI (absBI (ctorNum num den)) (ctorDen num den) : ℤ) : ℚ) = _
  rw [gcdBI_absBI, cast_ediv_of_dvd _ _ Int.gcd_dvd_left hg.ne',
    cast_ediv_of_dvd _ _ Int.gcd_dvd_right hg.ne']
  have hgq : ((Int.gcd (ctorNum num den) (ctorDen num den) : ℤ) : ℚ) ≠ 0 :=
    Int.cast_ne_zero.mpr hg.ne'
  rw [div_div_div_cancel_right₀ hgq]
  exact ctor_ratio num den

theorem Frac.toRat_den_ne (f : Frac) : (f.d : ℚ) ≠ 0 :=
  Int.cast_ne_zero.mpr f.pos.ne'

theorem Frac.toRat_add (a b : Frac) : (a.add b).toRat = a.toRat + b.toRat := by
  rw [Frac.add, toRat_fracNorm]
  simp only [Frac.toRat]
  have ha := a.toRat_den_ne
  have hb := b.toRat_den_ne
  push_cast
  field_simp

theorem Frac.toRat_sub (a b : Frac) : (a.sub b).toRat = a.toRat - b.toRat := by
  rw [Frac.sub, toRat_fracNorm]
  simp only [Frac.toRat]
  have ha := a.toRat_den_ne
  have hb := b.toRat_den_ne
  push_cast
  field_simp
  ring

theorem Frac.toRat_mul (a b : Frac) : (a.mul b).toRat = a.toRat * b.toRat := by
  rw [Frac.mul, toRat_fracNorm]
  simp only [Frac.toRat]
  have ha := a.toRat_den_ne
  have hb := b.toRat_den_ne
  push_cast
  field_simp

theorem Frac.toRat_fromBI (x : ℤ) : (Frac.fromBI x).toRat = (x : ℚ) := by
  rw [Frac.fromBI, toRat_fracNorm]
  norm_num

theorem Frac.toRat_eq_zero_iff (f : Frac) : f.toRat = 0 ↔ f.n = 0 := by
  rw [Frac.toRat, div_eq_zero_iff]
  constructor
  · intro h
    rcases h with h | h
    · exact_mod_cast h
    · exact absurd h f.toRat_den_ne
  · intro h
    exact Or.inl (by exact_mod_cast h)

theorem Frac.toRat_divP (a b : Frac) (h : b.n ≠ 0) :
    (a.divP b h).toRat = a.toRat / b.toRat := by
  rw [Frac.divP, toRat_fracNorm]
  simp only [Frac.toRat]
  have ha := a.toRat_den_ne
  have hb := b.toRat_den_ne
  have hbn : (b.n : ℚ) ≠ 0 := Int.cast_ne_zero.mpr h
  push_cast
  field_simp

/-- A stored (reduced, positive-denominator) fraction whose rational value is
an integer must be stored as `m / 1`. -/
theorem Frac.eq_intCast {f : Frac} {m : ℤ} (h : f.toRat = (m : ℚ)) : f.d = 1 ∧ f.n = m := by
  have hd : (f.d : ℚ) ≠ 0 := f.toRat_den_ne
  rw [Frac.toRat, div_eq_iff hd] at h
  have hn : f.n = m * f.d := by exact_mod_cast h
  have hdvd : f.d ∣ f.n := hn ▸ Dvd.intro_left m rfl
  have hgcd : Int.gcd f.n f.d = f.d.natAbs := by
    rw [Int.gcd]
    exact Nat.gcd_eq_right (Int.natAbs_dvd_natAbs.mpr hdvd)
  have hd1 : f.d.natAbs = 1 := by rw [← hgcd, f.red]
  have hdone : f.d = 1 := by
    have := f.pos
    omega
  refine ⟨hdone, ?_⟩
  rw [hn, hdone, mul_one]

theorem Frac.toRat_int (f : Frac) (h : f.d = 1) : f.toRat = (f.n : ℚ) := by
  rw [Frac.toRat, h]
  norm_num

/-- Claim C3: the rational constructor fails exactly on a zero denominator;
on a nonzero denominator it returns a reduced fraction with strictly positive
denominator; `(0, d)` normalizes to `0 / 1`; and the four arithmetic
operations of the substitution solver's `Frac` preserve the invariant. -/
theorem frac_invariant_holds :
    (∀ num : ℤ, fracMk num 0 = .error .divisionByZero) ∧
    (∀ num den : ℤ, den ≠ 0 →
      ∃ f : Frac, fracMk num den = .ok f ∧ 0 < f.d ∧ Int.gcd f.n f.d = 1) ∧
    (∀ den : ℤ, den ≠ 0 → ∃ f : Frac, fracMk 0 den = .ok f ∧ f.n = 0 ∧ f.d = 1) ∧
    (∀ a b : Frac, 0 < (a.add b).d ∧ Int.gcd (a.add b).n (a.add b).d = 1) ∧
    (∀ a b : Frac, 0 < (a.sub b).d ∧ Int.gcd (a.sub b).n (a.sub b).d = 1) ∧
    (∀ a b : Frac, 0 < (a.mul b).d ∧ Int.gcd (a.mul b).n (a.mul b).d = 1) ∧
    (∀ a b : Frac, b.n ≠ 0 →
      ∃ f : Frac, a.div b = .ok f ∧ 0 < f.d ∧ Int.gcd f.n f.d = 1) := by
  refine ⟨fun num => by rw [fracMk]; rfl, ?_, ?_, ?_, ?_, ?_, ?_⟩
  · intro num den hden
    refine ⟨fracNorm num den hden, ?_, (fracNorm num den hden).pos, (fracNorm num den hden).red⟩
    rw [fracMk, dif_neg hden]
  · intro den hden
    refine ⟨fracNorm 0 den hden, by rw [fracMk, dif_neg hden], ?_, ?_⟩
    · have h0 : (fracNorm 0 den hden).toRat = ((0 : ℤ) : ℚ) := by
        rw [toRat_fracNorm]
        norm_num
      exact (Frac.eq_intCast h0).2
    · have h0 : (fracNorm 0 den hden).toRat = ((0 : ℤ) : ℚ) := by
        rw [toRat_fracNorm]
        norm_num
      exact (Frac.eq_intCast h0).1
  · exact fun a b => ⟨(a.add b).pos, (a.add b).red⟩
  · exact fun a b => ⟨(a.sub b).pos, (a.sub b).red⟩
  · exact fun a b => ⟨(a.mul b).pos, (a.mul b).red⟩
  · intro a b h
    refine ⟨a.divP b h, ?_, (a.divP b h).pos, (a.divP b h).red⟩
    rw [Frac.div, dif_neg h]

/-- Concrete instantiation of `frac_invariant_holds`: constructing `6 / -4`. -/
theorem frac_invariant_holds_witness :
    ∃ f : Frac, fracMk 6 (-4) = .ok f ∧ 0 < f.d ∧ Int.gcd f.n f.d = 1 :=
  frac_invariant_holds.2.1 6 (-4) (by decide)

/-- A decoded share point `(x, y)`. -/
structure Point where
  x : ℤ
  y : ℤ
  deriving DecidableEq, Repr

/-- Numerator accumulated by the inner loop of `constantViaLagrange` for
sample `i`: the product of `-x_j` over `j ≠ i`. -/
def lagNum (xs : List ℤ) (k i : ℕ) : ℤ :=
  (List.range k).foldl (fun a j => if j = i then a else a * (-(xs.getD j 0))) 1

/-- Denominator accumulated by the inner loop of `constantViaLagrange` for
sample `i`: the product of `x_i - x_j` over `j ≠ i`. -/
def lagDen (xs : List ℤ) (k i : ℕ) : ℤ :=
  (List.range k).foldl (fun a j => if j = i then a else a * (xs.getD i 0 - xs.getD j 0)) 1

/-- One iteration of the outer loop of `constantViaLagrange`: build the basis
value `L_i(0)` as a fraction (this is where a duplicated `x` throws
`Division by zero`) and add `y_i * L_i(0)` to the accumulator. -/
def lagrangeStep (xs ys : List ℤ) (k : ℕ) (acc : Frac) (i : ℕ) : Except Err Frac := do
  let li0 ← fracMk (lagNum xs k i) (lagDen xs k i)
  pure (acc.add (li0.mul (Frac.fromBI (ys.getD i 0))))

/-- `constantViaLagrange` from `Problem.js`: Lagrange interpolation evaluated
at `x = 0` over exact fractions; a non-integral final value throws
`Non-integer constant term`. -/
def constantViaLagrange (points : List Point) : Except Err ℤ := do
  let k := points.length
  let xs := points.map Point.x
  let ys := points.map Point.y
  let acc ← (List.range k).foldlM (lagrangeStep xs ys k) (Frac.fromBI 0)
  if acc.d = 1 then pure acc.n else .error .nonIntegerResult

/-- Rational value of the `i`-th Lagrange term. -/
def lagTermQ (xs ys : List ℤ) (k i : ℕ) : ℚ :=
  (lagNum xs k i : ℚ) / (lagDen xs k i : ℚ) * (ys.getD i 0 : ℚ)

/-- Rational value of the full Lagrange-at-zero sum. -/
def lagSumQ (xs ys : List ℤ) (k : ℕ) : ℚ := ((List.range k).map (lagTermQ xs ys k)).sum

theorem foldl_mul_skip (g : ℕ → ℤ) (i : ℕ) :
    ∀ (L : List ℕ) (a : ℤ),
      L.foldl (fun a j => if j = i then a else a * g j) a =
        a * (L.map (fun j => if j = i then 1 else g j)).prod := by
  intro L
  induction L with
  | nil => intro a; simp
  | cons b L ih =>
    intro a
    rw [List.foldl_cons, ih, List.map_cons, List.prod_cons]
    by_cases hb : b = i
    · rw [if_pos hb, if_pos hb, one_mul]
    · rw [if_neg hb, if_neg hb, mul_assoc]

theorem list_range_prod (g : ℕ → ℤ) (k : ℕ) :
    ((List.range k).map g).prod = ∏ j in Finset.range k, g j := rfl

theorem list_range_sum (g : ℕ → ℚ) (k : ℕ) :
    ((List.range k).map g).sum = ∑ j in Finset.range k, g j := rfl

theorem prod_ite_erase (s : Finset ℕ) (i : ℕ) (g : ℕ → ℤ) (hi : i ∈ s) :
    (∏ j in s, if j = i then 1 else g j) = ∏ j in s.erase i, g j := by
  calc (∏ j in s, if j = i then 1 else g j)
      = (if i = i then 1 else g i) * ∏ j in s.erase i, (if j = i then 1 else g j) :=
        (Finset.mul_prod_erase s _ hi).symm
    _ = ∏ j in s.erase i, g j := by
        rw [if_pos rfl, one_mul]
        exact Finset.prod_congr rfl fun j hj => if_neg (Finset.mem_erase.mp hj).1

theorem lagNum_eq (xs : List ℤ) (k i : ℕ) (hi : i < k) :
    lagNum xs k i = ∏ j in (Finset.range k).erase i, (-(xs.getD j 0)) := by
  rw [lagNum, foldl_mul_skip, one_mul, list_range_prod,
    prod_ite_erase _ _ _ (Finset.mem_range.mpr hi)]

theorem lagDen_eq (xs : List ℤ) (k i : ℕ) (hi : i < k) :
    lagDen xs k i = ∏ j in (Finset.range k).erase i, (xs.getD i 0 - xs.getD j 0) := by
  rw [lagDen, foldl_mul_skip, one_mul, list_range_prod,
    prod_ite_erase _ _ _ (Finset.mem_range.mpr hi)]

theorem nodup_getD_ne (xs : List ℤ) (hnd : xs.Nodup) (i j : ℕ)
    (hi : i < xs.length) (hj : j < xs.length) (hij : i ≠ j) :
    xs.getD i 0 ≠ xs.getD j 0 := by
  rw [List.getD_eq_getElem xs 0 hi, List.getD_eq_getElem xs 0 hj]
  intro h
  exact hij (List.Nodup.getElem_inj_iff hnd |>.mp h)

theorem lagDen_ne_zero (xs : List ℤ) (k i : ℕ) (hk : k ≤ xs.length)
    (hnd : xs.Nodup) (hi : i < k) : lagDen xs k i ≠ 0 := by
  rw [lagDen_eq xs k i hi]
  rw [Finset.prod_ne_zero_iff]
  intro j hj
  obtain ⟨hne, hjr⟩ := Finset.mem_erase.mp hj
  have := nodup_getD_ne xs hnd i j (lt_of_lt_of_le hi hk)
    (lt_of_lt_of_le (Finset.mem_range.mp hjr) hk) (fun h => hne h.symm)
  omega

theorem lagrangeStep_err (xs ys : List ℤ) (k : ℕ) (acc : Frac) (i : ℕ)
    (h : lagDen xs k i = 0) :
    lagrangeStep xs ys k acc i = .error .divisionByZero := by
  rw [lagrangeStep, fracMk, dif_pos h]
  rfl

theorem lagrangeStep_ok (xs ys : List ℤ) (k : ℕ) (acc : Frac) (i : ℕ)
    (h : lagDen xs k i ≠ 0) :
    ∃ acc', lagrangeStep xs ys k acc i = .ok acc' ∧
      acc'.toRat = acc.toRat + lagTermQ xs ys k i := by
  refine ⟨acc.add ((fracNorm (lagNum xs k i) (lagDen xs k i) h).mul
    (Frac.fromBI (ys.getD i 0))), ?_, ?_⟩
  · rw [lagrangeStep, fracMk, dif_neg h]
    rfl
  · rw [Frac.toRat_add, Frac.toRat_mul, Frac.toRat_fromBI, toRat_fracNorm, lagTermQ]

theorem foldlM_lagrange_ok (xs ys : List ℤ) (k : ℕ) :
    ∀ (L : List ℕ) (acc : Frac), (∀ i ∈ L, lagDen xs k i ≠ 0) →
      ∃ acc', L.foldlM (lagrangeStep xs ys k) acc = .ok acc' ∧
        acc'.toRat = acc.toRat + (L.map (lagTermQ xs ys k)).sum := by
  intro L
  induction L with
  | nil =>
    intro acc _
    exact ⟨acc, rfl, by simp⟩
  | cons b L ih =>
    intro acc hden
    obtain ⟨acc1, hstep, hval⟩ := lagrangeStep_ok xs ys k acc b (hden b (List.mem_cons_self b L))
    obtain ⟨acc', hfold, hval'⟩ := ih acc1 (fun i hiL => hden i (List.mem_cons_of_mem b hiL))
    refine ⟨acc', ?_, ?_⟩
    · rw [List.foldlM_cons, hstep]
      exact hfold
    · rw [hval', hval, List.map_cons, List.sum_cons]
      ring

theorem foldlM_lagrange_err (xs ys : List ℤ) (k : ℕ) :
    ∀ (L : List ℕ) (acc : Frac), (∃ i ∈ L, lagDen xs k i = 0) →
      L.foldlM (lagrangeStep xs ys k) acc = .error .divisionByZero := by
  intro L
  induction L with
  | nil =>
    intro acc h
    obtain ⟨i, hi, _⟩ := h
    exact absurd hi (List.not_mem_nil i)
  | cons b L ih =>
    intro acc h
    by_cases hb : lagDen xs k b = 0
    · rw [List.foldlM_cons, lagrangeStep_err xs ys k acc b hb]
      rfl
    · obtain ⟨acc1, hstep, _⟩ := lagrangeStep_ok xs ys k acc b hb
      rw [List.foldlM_cons, hstep]
      refine ih acc1 ?_
      obtain ⟨i, hi, hi0⟩ := h
      rcases List.mem_cons.mp hi with rfl | hiL
      · exact absurd hi0 hb
      · exact ⟨i, hiL, hi0⟩

/-- Characterization of `constantViaLagrange` on a point list with
pairwise-distinct `x`: the accumulator always evaluates to the rational
Lagrange-at-zero sum, and the final integrality test decides the outcome. -/
theorem constantViaLagrange_char (points : List Point)
    (hnd : (points.map Point.x).Nodup) :
    ∃ acc : Frac,
      acc.toRat = lagSumQ (points.map Point.x) (points.map Point.y) points.length ∧
      constantViaLagrange points =
        if acc.d = 1 then .ok acc.n else .error .nonIntegerResult := by
  have hlen : points.length = (points.map Point.x).length := (List.length_map _ _).symm
  have hden : ∀ i ∈ List.range points.length,
      lagDen (points.map Point.x) points.length i ≠ 0 := by
    intro i hi
    exact lagDen_ne_zero _ _ _ hlen.le hnd (List.mem_range.mp hi)
  obtain ⟨acc, hfold, hval⟩ :=
    foldlM_lagrange_ok (points.map Point.x) (points.map Point.y) points.length
      (List.range points.length) (Frac.fromBI 0) hden
  refine ⟨acc, ?_, ?_⟩
  · rw [hval, Frac.toRat_fromBI, lagSumQ]
    push_cast
    ring
  · rw [constantViaLagrange, hfold]
    rfl

/-- If `constantViaLagrange` returns an integer, that integer is exactly the
rational Lagrange-at-zero sum. -/
theorem constantViaLagrange_value (points : List Point)
    (hnd : (points.map Point.x).Nodup) (c : ℤ)
    (h : constantViaLagrange points = .ok c) :
    (c : ℚ) = lagSumQ (points.map Point.x) (points.map Point.y) points.length := by
  obtain ⟨acc, hval, hres⟩ := constantViaLagrange_char points hnd
  rw [hres] at h
  split at h
  · rename_i hd
    rw [← hval, Frac.toRat_int acc hd]
    injection h with h
    rw [h]
  · exact absurd h (by intro hx; injection hx)

/-- Any subset containing two points with the same `x` makes
`constantViaLagrange` throw `Division by zero`. -/
theorem lagrange_dup_err (pts : List Point) (i j : ℕ) (hi : i < pts.length)
    (hj : j < pts.length) (hij : i ≠ j) (hxx : pts[i].x = pts[j].x) :
    constantViaLagrange pts = .error .divisionByZero := by
  rw [constantViaLagrange]
  have hbad : lagDen (pts.map Point.x) pts.length i = 0 := by
    rw [lagDen_eq _ _ _ hi]
    refine Finset.prod_eq_zero (i := j)
      (Finset.mem_erase.mpr ⟨fun h => hij h.symm, Finset.mem_range.mpr hj⟩) ?_
    have hmx : (pts.map Point.x).length = pts.length := List.length_map _ _
    rw [List.getD_eq_getElem _ 0 (by omega), List.getD_eq_getElem _ 0 (by omega)]
    rw [List.getElem_map, List.getElem_map, hxx]
    ring
  rw [foldlM_lagrange_err _ _ _ _ _ ⟨i, List.mem_range.mpr hi, hbad⟩]
  rfl

theorem eval_zero_basisDivisor (x y : ℚ) :
    Polynomial.eval 0 (Lagrange.basisDivisor x y) = (x - y)⁻¹ * (0 - y) := by
  rw [Lagrange.basisDivisor]
  simp

theorem lagTermQ_eq (xs ys : List ℤ) (k i : ℕ) (hi : i < k) :
    lagTermQ xs ys k i = (ys.getD i 0 : ℚ) *
      Polynomial.eval 0 (Lagrange.basis (Finset.range k)
        (fun j => ((xs.getD j 0 : ℤ) : ℚ)) i) := by
  rw [lagTermQ, lagNum_eq _ _ _ hi, lagDen_eq _ _ _ hi, Lagrange.basis, Polynomial.eval_prod]
  push_cast
  rw [← Finset.prod_div_distrib, mul_comm]
  congr 1
  refine Finset.prod_congr rfl fun j hj => ?_
  rw [eval_zero_basisDivisor, zero_sub, div_eq_mul_inv, mul_comm]

theorem lagSumQ_eq_eval_interpolate (xs ys : List ℤ) (k : ℕ) :
    lagSumQ xs ys k = Polynomial.eval 0
      (Lagrange.interpolate (Finset.range k) (fun j => ((xs.getD j 0 : ℤ) : ℚ))
        (fun j => ((ys.getD j 0 : ℤ) : ℚ))) := by
  rw [lagSumQ, list_range_sum, Lagrange.interpolate_apply, Polynomial.eval_finset_sum]
  refine Finset.sum_congr rfl fun i hi => ?_
  rw [Polynomial.eval_mul, Polynomial.eval_C, lagTermQ_eq xs ys k i (Finset.mem_range.mp hi)]

/-- Claim C1: on a list of exactly `k` points with pairwise-distinct
`x`-coordinates all lying on an integer polynomial of degree below `k`, the
direct-mode computation returns exactly the polynomial's constant term. -/
theorem direct_mode_exact (points : List Point) (f : Polynomial ℤ)
    (hnd : (points.map Point.x).Nodup)
    (hdeg : f.degree < (points.length : ℕ))
    (hon : ∀ p ∈ points, Polynomial.eval p.x f = p.y) :
    constantViaLagrange points = .ok (f.coeff 0) := by
  classical
  have hlen : (points.map Point.x).length = points.length := List.length_map _ _
  have hleny : (points.map Point.y).length = points.length := List.length_map _ _
  have hinj : Set.InjOn (fun j => (((points.map Point.x).getD j 0 : ℤ) : ℚ))
      (Finset.range points.length) := by
    intro a ha b hb hab
    simp only [Finset.coe_range, Set.mem_Iio] at ha hb
    by_contra hne
    have hab2 : (((points.map Point.x).getD a 0 : ℤ) : ℚ) =
        (((points.map Point.x).getD b 0 : ℤ) : ℚ) := hab
    have hcast : (points.map Point.x).getD a 0 = (points.map Point.x).getD b 0 := by
      exact_mod_cast hab2
    exact nodup_getD_ne _ hnd a b (by omega) (by omega) hne hcast
  have hgdeg : (f.map (Int.castRingHom ℚ)).degree < (Finset.range points.length).card := by
    rw [Finset.card_range]
    exact lt_of_le_of_lt Polynomial.degree_map_le hdeg
  have heval : ∀ i ∈ Finset.range points.length,
      Polynomial.eval ((((points.map Point.x).getD i 0 : ℤ) : ℚ))
        (f.map (Int.castRingHom ℚ)) = (((points.map Point.y).getD i 0 : ℤ) : ℚ) := by
    intro i hi
    have hik : i < points.length := Finset.mem_range.mp hi
    have hxi : (points.map Point.x).getD i 0 = points[i].x := by
      rw [List.getD_eq_getElem _ 0 (by omega), List.getElem_map]
    have hyi : (points.map Point.y).getD i 0 = points[i].y := by
      rw [List.getD_eq_getElem _ 0 (by omega), List.getElem_map]
    rw [hxi, hyi, Polynomial.eval_map]
    have h2 := @Polynomial.eval₂_at_apply ℤ _ f ℚ _ (Int.castRingHom ℚ) (points[i].x)
    simp only [Int.coe_castRingHom] at h2
    rw [h2, hon points[i] (points.getElem_mem hik)]
  have hfi : f.map (Int.castRingHom ℚ) =
      Lagrange.interpolate (Finset.range points.length)
        (fun j => (((points.map Point.x).getD j 0 : ℤ) : ℚ))
        (fun j => (((points.map Point.y).getD j 0 : ℤ) : ℚ)) :=
    Lagrange.eq_interpolate_of_eval_eq _ hinj hgdeg heval
  have hsum : lagSumQ (points.map Point.x) (points.map Point.y) points.length =
      ((f.coeff 0 : ℤ) : ℚ) := by
    rw [lagSumQ_eq_eval_interpolate, ← hfi, Polynomial.eval_map]
    have h0 := @Polynomial.eval₂_at_apply ℤ _ f ℚ _ (Int.castRingHom ℚ) 0
    simp only [Int.coe_castRingHom, Int.cast_zero] at h0
    rw [h0, Polynomial.coeff_zero_eq_eval_zero]
  obtain ⟨acc, hval, hres⟩ := constantViaLagrange_char points hnd
  obtain ⟨hd1, hn⟩ := Frac.eq_intCast (hval.trans hsum)
  rw [hres, if_pos hd1, hn]

/-- Concrete instantiation of `direct_mode_exact`: the two points `(1, 6)` and
`(2, 7)` lie on `X + 5`, and direct mode recovers the constant term `5`. -/
theorem direct_mode_exact_witness :
    constantViaLagrange [⟨1, 6⟩, ⟨2, 7⟩] = .ok 5 := by
  have hdeg : (Polynomial.X + Polynomial.C (5 : ℤ)).degree <
      ((([⟨1, 6⟩, ⟨2, 7⟩] : List Point).length : ℕ) : WithBot ℕ) := by
    rw [Polynomial.degree_X_add_C]
    exact_mod_cast (by norm_num : (1 : ℕ) < 2)
  have hon : ∀ p ∈ ([⟨1, 6⟩, ⟨2, 7⟩] : List Point),
      Polynomial.eval p.x (Polynomial.X + Polynomial.C (5 : ℤ)) = p.y := by
    intro p hp
    simp only [List.mem_cons, List.not_mem_nil, or_false] at hp
    rcases hp with rfl | rfl
    · simp
    · simp
  have h := direct_mode_exact [⟨1, 6⟩, ⟨2, 7⟩] (Polynomial.X + Polynomial.C 5)
    (by decide) hdeg hon
  rw [h]
  simp [Polynomial.coeff_add, Polynomial.coeff_X_zero, Polynomial.coeff_C_zero]

/-- The backward scan of the `kCombinations` generator
(`let i = last; while (i >= 0 && idx[i] === i + n - k) i--`): starting below
position `t`, find the rightmost position whose entry is not at its maximal
value `i + n - k` (ℕ subtraction, faithful for `k ≤ n`). -/
def lastIncrementable (idx : List ℕ) (n k : ℕ) : ℕ → Option ℕ
  | 0 => none
  | t + 1 =>
    if idx.getD t 0 = t + n - k then lastIncrementable idx n k t else some t

/-- One advancement of the `kCombinations` cursor: increment the found
position and reset the following entries to consecutive values; `none` when
the scan runs off the left end. -/
def nextCombo (idx : List ℕ) (n k : ℕ) : Option (List ℕ) :=
  match lastIncrementable idx n k k with
  | none => none
  | some i => some (idx.take i ++ (List.range (k - i)).map (fun t => idx.getD i 0 + 1 + t))

/-- The stream of index lists yielded by the generator starting at `idx`,
cut off by an explicit fuel bound. -/
def combosFrom (n k : ℕ) : ℕ → List ℕ → List (List ℕ)
  | 0, idx => [idx]
  | fuel + 1, idx =>
    match nextCombo idx n k with
    | none => [idx]
    | some idx2 => idx :: combosFrom n k fuel idx2

/-- The full yield sequence of `kCombinations` over universe size `n` and
subset size `k`, starting at `[0, 1, ..., k-1]`; `C(n, k)` fuel suffices. -/
def kCombinationsList (n k : ℕ) : List (List ℕ) :=
  combosFrom n k (Nat.choose n k) (List.range k)

/-- A well-formed combination: `k` strictly increasing indices below `n`. -/
def ValidCombo (n k : ℕ) (c : List ℕ) : Prop :=
  c.length = k ∧ c.Pairwise (· < ·) ∧ ∀ a ∈ c, a < n

theorem pairwise_iff_getD (c : List ℕ) :
    c.Pairwise (· < ·) ↔
      ∀ q1 q2, q1 < q2 → q2 < c.length → c.getD q1 0 < c.getD q2 0 := by
  rw [List.pairwise_iff_getElem]
  constructor
  · intro h q1 q2 h12 h2
    rw [List.getD_eq_getElem _ _ (by omega), List.getD_eq_getElem _ _ h2]
    exact h q1 q2 (by omega) h2 h12
  · intro h i j hi hj hij
    have h2 := h i j hij hj
    rw [List.getD_eq_getElem _ _ hi, List.getD_eq_getElem _ _ hj] at h2
    exact h2

theorem mem_iff_getD (c : List ℕ) (a : ℕ) :
    a ∈ c ↔ ∃ q, q < c.length ∧ c.getD q 0 = a := by
  rw [List.mem_iff_getElem]
  constructor
  · rintro ⟨q, hq, rfl⟩
    exact ⟨q, hq, List.getD_eq_getElem _ _ hq⟩
  · rintro ⟨q, hq, hval⟩
    exact ⟨q, hq, by rw [← List.getD_eq_getElem _ _ hq, hval]⟩

theorem pairwise_gap (c : List ℕ) (hp : c.Pairwise (· < ·)) :
    ∀ j, j < c.length → ∀ i, i ≤ j → c.getD i 0 + (j - i) ≤ c.getD j 0 := by
  intro j
  induction j with
  | zero =>
    intro _ i hi
    interval_cases i
    simp
  | succ j ih =>
    intro hj i hi
    rcases Nat.eq_or_lt_of_le hi with rfl | hlt
    · simp
    · have h1 := ih (by omega) i (by omega)
      have h2 : c.getD j 0 < c.getD (j + 1) 0 :=
        (pairwise_iff_getD c).mp hp j (j + 1) (by omega) hj
      omega

theorem valid_upper (n k : ℕ) (c : List ℕ) (hv : ValidCombo n k c) (i : ℕ)
    (hi : i < k) : c.getD i 0 + (k - 1 - i) + 1 ≤ n := by
  obtain ⟨hlen, hp, hb⟩ := hv
  have hgap := pairwise_gap c hp (k - 1) (by omega) i (by omega)
  have hlast : c.getD (k - 1) 0 < n := by
    refine hb _ ?_
    rw [List.getD_eq_getElem _ _ (by omega : k - 1 < c.length)]
    exact c.getElem_mem (by omega)
  omega

theorem lastIncrementable_none (idx : List ℕ) (n k : ℕ) :
    ∀ t, lastIncrementable idx n k t = none ↔ ∀ i, i < t → idx.getD i 0 = i + n - k := by
  intro t
  induction t with
  | zero => simp [lastIncrementable]
  | succ t ih =>
    rw [lastIncrementable]
    split
    · rename_i heq
      rw [ih]
      constructor
      · intro h i hi
        rcases Nat.lt_succ_iff_lt_or_eq.mp hi with h2 | rfl
        · exact h i h2
        · exact heq
      · intro h i hi
        exact h i (by omega)
    · rename_i hne
      constructor
      · intro h
        exact absurd h (by simp)
      · intro h
        exact absurd (h t (by omega)) hne

theorem lastIncrementable_some (idx : List ℕ) (n k : ℕ) :
    ∀ t i, lastIncrementable idx n k t = some i →
      i < t ∧ idx.getD i 0 ≠ i + n - k ∧
        ∀ j, i < j → j < t → idx.getD j 0 = j + n - k := by
  intro t
  induction t with
  | zero =>
    intro i h
    exact absurd h (by simp [lastIncrementable])
  | succ t ih =>
    intro i h
    rw [lastIncrementable] at h
    split at h
    · rename_i heq
      obtain ⟨h1, h2, h3⟩ := ih i h
      refine ⟨by omega, h2, fun j hj1 hj2 => ?_⟩
      rcases Nat.lt_succ_iff_lt_or_eq.mp hj2 with h4 | rfl
      · exact h3 j hj1 h4
      · exact heq
    · rename_i hne
      injection h with h
      subst h
      exact ⟨by omega, hne, fun j hj1 hj2 => by omega⟩

theorem lex_char : ∀ (u w : List ℕ), u.length = w.length →
    (List.Lex (· < ·) u w ↔ ∃ p, p < u.length ∧
      (∀ q, q < p → u.getD q 0 = w.getD q 0) ∧ u.getD p 0 < w.getD p 0) := by
  intro u
  induction u with
  | nil =>
    intro w hw
    have hwn : w = [] := List.eq_nil_of_length_eq_zero hw.symm
    subst hwn
    constructor
    · intro h
      cases h
    · rintro ⟨p, hp, _⟩
      exact absurd hp (by simp)
  | cons a u ih =>
    intro w hw
    cases w with
    | nil => simp at hw
    | cons b w =>
      constructor
      · intro h
        cases h with
        | rel hab => exact ⟨0, by simp, by omega, by simpa using hab⟩
        | cons htail =>
          obtain ⟨p, hp, heq, hlt⟩ := (ih w (by simpa using hw)).mp htail
          refine ⟨p + 1, by simpa using hp, fun q hq => ?_, by simpa using hlt⟩
          cases q with
          | zero => rfl
          | succ q => simpa using heq q (by omega)
      · rintro ⟨p, hp, heq, hlt⟩
        cases p with
        | zero => exact List.Lex.rel (by simpa using hlt)
        | succ p =>
          have hab : a = b := by simpa using heq 0 (by omega)
          subst hab
          refine List.Lex.cons ((ih w (by simpa using hw)).mpr
            ⟨p, by simpa using hp, fun q hq => ?_, by simpa using hlt⟩)
          simpa using heq (q + 1) (by omega)

theorem lex_or_eq_of_pointwise : ∀ (u w : List ℕ), u.length = w.length →
    (∀ p, p < u.length → u.getD p 0 ≤ w.getD p 0) →
    u = w ∨ List.Lex (· < ·) u w := by
  intro u
  induction u with
  | nil =>
    intro w hlen _
    exact Or.inl (List.eq_nil_of_length_eq_zero hlen.symm).symm
  | cons a u ih =>
    intro w hlen hle
    cases w with
    | nil => simp at hlen
    | cons b w =>
      have h0 : a ≤ b := by simpa using hle 0 (by simp)
      rcases Nat.lt_or_ge a b with hab | hab
      · exact Or.inr (List.Lex.rel hab)
      · have hab2 : a = b := by omega
        subst hab2
        rcases ih w (by simpa using hlen)
          (fun p hp => by simpa using hle (p + 1) (by simpa using hp)) with rfl | hlex
        · exact Or.inl rfl
        · exact Or.inr (List.Lex.cons hlex)

theorem next_len (c : List ℕ) (k i : ℕ) (hlen : c.length = k) (hik : i < k) :
    (c.take i ++ (List.range (k - i)).map (fun t => c.getD i 0 + 1 + t)).length = k := by
  simp [List.length_take, hlen]
  omega

theorem next_getD (c : List ℕ) (k i q : ℕ) (hlen : c.length = k) (hik : i < k)
    (hq : q < k) :
    (c.take i ++ (List.range (k - i)).map (fun t => c.getD i 0 + 1 + t)).getD q 0 =
      if q < i then c.getD q 0 else c.getD i 0 + 1 + (q - i) := by
  have htl : (c.take i).length = i := by
    simp [List.length_take]
    omega
  split
  · rename_i h
    rw [List.getD_append _ _ _ q (by omega)]
    rw [List.getD_eq_getElem _ _ (by omega), List.getD_eq_getElem _ _ (by omega : q < c.length)]
    exact List.getElem_take c
  · rename_i h
    rw [List.getD_append_right _ _ _ q (by omega), htl]
    have hqi : q - i < ((List.range (k - i)).map (fun t => c.getD i 0 + 1 + t)).length := by
      simp
      omega
    rw [List.getD_eq_getElem _ _ hqi, List.getElem_map, List.getElem_range]

theorem nextCombo_spec (n k : ℕ) (hkn : k ≤ n) (c : List ℕ) (hv : ValidCombo n k c)
    (c' : List ℕ) (h : nextCombo c n k = some c') :
    ValidCombo n k c' ∧ List.Lex (· < ·) c c' ∧
      ∀ d, ValidCombo n k d → List.Lex (· < ·) c d →
        c' = d ∨ List.Lex (· < ·) c' d := by
  obtain ⟨hlen, hp, hb⟩ := hv
  rw [nextCombo] at h
  rcases hli : lastIncrementable c n k k with _ | i
  · rw [hli] at h
    exact absurd h (by simp)
  · rw [hli] at h
    injection h with h
    subst h
    obtain ⟨hik, hne, hmax⟩ := lastIncrementable_some c n k k i hli
    have hub := valid_upper n k c ⟨hlen, hp, hb⟩ i hik
    have hlt : c.getD i 0 < i + n - k := by omega
    have hlen2 := next_len c k i hlen hik
    have hget2 := fun q hq => next_getD c k i q hlen hik hq
    have hpget := (pairwise_iff_getD c).mp hp
    have hv2 : ValidCombo n k
        (c.take i ++ (List.range (k - i)).map (fun t => c.getD i 0 + 1 + t)) := by
      refine ⟨hlen2, ?_, ?_⟩
      · rw [pairwise_iff_getD]
        intro q1 q2 h12 h2
        rw [hlen2] at h2
        rw [hget2 q1 (by omega), hget2 q2 (by omega)]
        by_cases hq2 : q2 < i
        · rw [if_pos (by omega), if_pos hq2]
          exact hpget q1 q2 h12 (by omega)
        · rw [if_neg hq2]
          by_cases hq1 : q1 < i
          · rw [if_pos hq1]
            have := hpget q1 i hq1 (by omega)
            omega
          · rw [if_neg hq1]
            omega
      · intro a ha
        obtain ⟨q, hq, hval⟩ := (mem_iff_getD _ a).mp ha
        rw [hlen2] at hq
        rw [hget2 q hq] at hval
        by_cases hqi : q < i
        · rw [if_pos hqi] at hval
          refine hb a ?_
          rw [mem_iff_getD]
          exact ⟨q, by omega, hval⟩
        · rw [if_neg hqi] at hval
          omega
    refine ⟨hv2, ?_, ?_⟩
    · rw [lex_char _ _ (by omega)]
      refine ⟨i, by omega, fun q hq => ?_, ?_⟩
      · rw [hget2 q (by omega), if_pos hq]
      · rw [hget2 i (by omega), if_neg (by omega)]
        omega
    · intro d hd hlex
      have hlend : d.length = k := hd.1
      obtain ⟨p, hpc, hpeq, hplt⟩ := (lex_char c d (by omega)).mp hlex
      rw [hlen] at hpc
      rcases Nat.lt_trichotomy p i with hpi | rfl | hpi
      · right
        rw [lex_char _ _ (by omega)]
        refine ⟨p, by omega, fun q hq => ?_, ?_⟩
        · rw [hget2 q (by omega), if_pos (by omega)]
          exact hpeq q hq
        · rw [hget2 p (by omega), if_pos hpi]
          exact hplt
      · rcases Nat.lt_or_ge (c.getD p 0 + 1) (d.getD p 0) with hgt | hge
        · right
          rw [lex_char _ _ (by omega)]
          refine ⟨p, by omega, fun q hq => ?_, ?_⟩
          · rw [hget2 q (by omega), if_pos (by omega)]
            exact hpeq q hq
          · rw [hget2 p (by omega), if_neg (by omega)]
            omega
        · have hdv : d.getD p 0 = c.getD p 0 + 1 := by omega
          refine lex_or_eq_of_pointwise _ d (by omega) ?_
          intro q hq
          rw [hlen2] at hq
          rw [hget2 q hq]
          by_cases hqi : q < p
          · rw [if_pos hqi, hpeq q hqi]
          · rw [if_neg hqi]
            have hgap := pairwise_gap d hd.2.1 q (by omega) p (by omega)
            omega
      · exfalso
        have hcp : c.getD p 0 = p + n - k := hmax p hpi hpc
        have hup := valid_upper n k d hd p hpc
        omega

theorem nextCombo_none_max (n k : ℕ) (hkn : k ≤ n) (c : List ℕ)
    (hv : ValidCombo n k c) (h : nextCombo c n k = none) :
    ∀ d, ValidCombo n k d → d = c ∨ List.Lex (· < ·) d c := by
  rw [nextCombo] at h
  rcases hli : lastIncrementable c n k k with _ | i
  · have hmax := (lastIncrementable_none c n k k).mp hli
    intro d hd
    refine lex_or_eq_of_pointwise d c (hd.1.trans hv.1.symm) ?_
    intro p hp
    rw [hd.1] at hp
    rw [hmax p hp]
    have := valid_upper n k d hd p hp
    omega
  · rw [hli] at h
    exact absurd h (by simp)

theorem range_valid (n k : ℕ) (hkn : k ≤ n) : ValidCombo n k (List.range k) :=
  ⟨List.length_range k, List.pairwise_lt_range k, fun a ha => by
    have := List.mem_range.mp ha
    omega⟩

theorem range_min (n k : ℕ) (c : List ℕ) (hv : ValidCombo n k c) :
    List.range k = c ∨ List.Lex (· < ·) (List.range k) c := by
  refine lex_or_eq_of_pointwise _ _ (by simp [hv.1]) ?_
  intro p hp
  simp only [List.length_range] at hp
  have h1 : (List.range k).getD p 0 = p := by
    rw [List.getD_eq_getElem _ _ (by simpa using hp), List.getElem_range]
  rw [h1]
  have := pairwise_gap c hv.2.1 p (by rw [hv.1]; exact hp) 0 (by omega)
  omega

theorem sorted_bounded_sublist : ∀ (c : List ℕ) (s len : ℕ),
    c.Pairwise (· < ·) → (∀ a ∈ c, s ≤ a ∧ a < s + len) →
    c.Sublist (List.range' s len) := by
  intro c
  induction c with
  | nil =>
    intro s len _ _
    exact List.nil_sublist _
  | cons x c ih =>
    intro s len hp hb
    obtain ⟨hsx, hxlt⟩ := hb x (List.mem_cons_self x c)
    have hdecomp : List.range' s len =
        List.range' s (x - s) ++ List.range' x (len - (x - s)) := by
      have h2 := List.range'_append s (x - s) (len - (x - s)) 1
      rw [show s + 1 * (x - s) = x by omega, show len - (x - s) + (x - s) = len by omega] at h2
      exact h2.symm
    rw [hdecomp]
    have htail : List.range' x (len - (x - s)) =
        x :: List.range' (x + 1) (len - (x - s) - 1) := by
      have h5 : len - (x - s) - 1 + 1 = len - (x - s) := by omega
      conv_lhs => rw [← h5]
      rw [List.range'_succ]
    rw [htail]
    obtain ⟨hhead, hptail⟩ := List.pairwise_cons.mp hp
    have hc : c.Sublist (List.range' (x + 1) (len - (x - s) - 1)) := by
      refine ih (x + 1) (len - (x - s) - 1) hptail ?_
      intro a ha
      have h3 := hhead a ha
      have h4 := (hb a (List.mem_cons_of_mem x ha)).2
      omega
    exact List.Sublist.append (List.nil_sublist _) (List.Sublist.cons₂ x hc)

theorem valid_iff_mem_sublistsLen (n k : ℕ) (c : List ℕ) :
    ValidCombo n k c ↔ c ∈ List.sublistsLen k (List.range n) := by
  rw [List.mem_sublistsLen]
  constructor
  · intro hv
    refine ⟨?_, hv.1⟩
    have h2 := sorted_bounded_sublist c 0 n hv.2.1
      (fun a ha => ⟨Nat.zero_le a, by simpa using hv.2.2 a ha⟩)
    simpa [List.range_eq_range'] using h2
  · rintro ⟨hs, hl⟩
    exact ⟨hl, (List.pairwise_lt_range n).sublist hs,
      fun a ha => List.mem_range.mp (hs.mem ha)⟩

theorem valid_finite (n k : ℕ) : {d : List ℕ | ValidCombo n k d}.Finite := by
  refine Set.Finite.subset (List.sublistsLen k (List.range n)).finite_toSet ?_
  intro d hd
  simpa using (valid_iff_mem_sublistsLen n k d).mp hd

theorem valid_ncard (n k : ℕ) :
    {d : List ℕ | ValidCombo n k d}.ncard = Nat.choose n k := by
  classical
  have hset : {d : List ℕ | ValidCombo n k d} =
      ↑(List.sublistsLen k (List.range n)).toFinset := by
    ext d
    simp [valid_iff_mem_sublistsLen n k d]
  rw [hset, Set.ncard_coe_Finset,
    List.toFinset_card_of_nodup (List.nodup_sublistsLen k (List.nodup_range n)),
    List.length_sublistsLen, List.length_range]

theorem combosFrom_cons (n k fuel : ℕ) (c : List ℕ) :
    ∃ t, combosFrom n k fuel c = c :: t := by
  cases fuel with
  | zero => exact ⟨[], rfl⟩
  | succ fuel =>
    simp only [combosFrom]
    rcases nextCombo c n k with _ | c2
    · exact ⟨[], rfl⟩
    · exact ⟨combosFrom n k fuel c2, rfl⟩

theorem combosFrom_spec (n k : ℕ) (hkn : k ≤ n) :
    ∀ (fuel : ℕ) (c : List ℕ), ValidCombo n k c →
      {d : List ℕ | ValidCombo n k d ∧ List.Lex (· < ·) c d}.ncard ≤ fuel →
      (∀ d, d ∈ combosFrom n k fuel c ↔
        (ValidCombo n k d ∧ (c = d ∨ List.Lex (· < ·) c d))) ∧
      List.Chain' (List.Lex (· < ·)) (combosFrom n k fuel c) := by
  intro fuel
  induction fuel with
  | zero =>
    intro c hv hcard
    have hfin : {d : List ℕ | ValidCombo n k d ∧ List.Lex (· < ·) c d}.Finite :=
      (valid_finite n k).subset (fun d hd => hd.1)
    have hempty : {d : List ℕ | ValidCombo n k d ∧ List.Lex (· < ·) c d} = ∅ :=
      (Set.ncard_eq_zero hfin).mp (by omega)
    constructor
    · intro d
      constructor
      · intro hd
        simp only [combosFrom, List.mem_singleton] at hd
        subst hd
        exact ⟨hv, Or.inl rfl⟩
      · rintro ⟨hvd, rfl | hlex⟩
        · simp [combosFrom]
        · have hdm : d ∈ {d : List ℕ | ValidCombo n k d ∧ List.Lex (· < ·) c d} :=
            ⟨hvd, hlex⟩
          rw [hempty] at hdm
          exact absurd hdm (Set.not_mem_empty d)
    · simp [combosFrom]
  | succ fuel ih =>
    intro c hv hcard
    rcases hnc : nextCombo c n k with _ | c'
    · have hmax := nextCombo_none_max n k hkn c hv hnc
      constructor
      · intro d
        simp only [combosFrom, hnc, List.mem_singleton]
        constructor
        · rintro rfl
          exact ⟨hv, Or.inl rfl⟩
        · rintro ⟨hvd, rfl | hlex⟩
          · rfl
          · exfalso
            rcases hmax d hvd with rfl | hgt
            · exact IsAsymm.asymm d d hlex hlex
            · exact IsAsymm.asymm c d hlex hgt
      · simp [combosFrom, hnc]
    · obtain ⟨hv', hlt, htight⟩ := nextCombo_spec n k hkn c hv c' hnc
      have hcard' :
          {d : List ℕ | ValidCombo n k d ∧ List.Lex (· < ·) c' d}.ncard ≤ fuel := by
        have hss : {d : List ℕ | ValidCombo n k d ∧ List.Lex (· < ·) c' d} ⊂
            {d : List ℕ | ValidCombo n k d ∧ List.Lex (· < ·) c d} := by
          constructor
          · intro d hd
            exact ⟨hd.1, IsTrans.trans c c' d hlt hd.2⟩
          · intro hsub
            have hc' : c' ∈ {d : List ℕ | ValidCombo n k d ∧ List.Lex (· < ·) c d} :=
              ⟨hv', hlt⟩
            have := (hsub hc').2
            exact IsAsymm.asymm c' c' this this
        have hlt2 := Set.ncard_lt_ncard hss ((valid_finite n k).subset (fun d hd => hd.1))
        omega
      obtain ⟨ihmem, ihchain⟩ := ih c' hv' hcard'
      constructor
      · intro d
        simp only [combosFrom, hnc, List.mem_cons]
        constructor
        · rintro (rfl | hd)
          · exact ⟨hv, Or.inl rfl⟩
          · obtain ⟨hvd, hcd⟩ := (ihmem d).mp hd
            refine ⟨hvd, Or.inr ?_⟩
            rcases hcd with rfl | h2
            · exact hlt
            · exact IsTrans.trans c c' d hlt h2
        · rintro ⟨hvd, rfl | hlex⟩
          · exact Or.inl rfl
          · right
            rw [ihmem d]
            rcases htight d hvd hlex with rfl | h2
            · exact ⟨hvd, Or.inl rfl⟩
            · exact ⟨hvd, Or.inr h2⟩
      · simp only [combosFrom, hnc]
        obtain ⟨t, ht⟩ := combosFrom_cons n k fuel c'
        rw [ht, List.chain'_cons]
        exact ⟨hlt, ht ▸ ihchain⟩

theorem kCombinationsList_mem (n k : ℕ) (hkn : k ≤ n) :
    ∀ c, c ∈ kCombinationsList n k ↔ ValidCombo n k c := by
  have hcard :
      {d : List ℕ | ValidCombo n k d ∧ List.Lex (· < ·) (List.range k) d}.ncard ≤
        Nat.choose n k := by
    have hsub : {d : List ℕ | ValidCombo n k d ∧ List.Lex (· < ·) (List.range k) d} ⊆
        {d : List ℕ | ValidCombo n k d} := fun d hd => hd.1
    have hle := Set.ncard_le_ncard hsub (valid_finite n k)
    rw [valid_ncard] at hle
    exact hle
  obtain ⟨hmem, _⟩ := combosFrom_spec n k hkn (Nat.choose n k) (List.range k)
    (range_valid n k hkn) hcard
  intro c
  rw [kCombinationsList, hmem c]
  constructor
  · rintro ⟨hvc, _⟩
    exact hvc
  · intro hvc
    exact ⟨hvc, range_min n k c hvc⟩

theorem kCombinationsList_chain (n k : ℕ) (hkn : k ≤ n) :
    List.Chain' (List.Lex (· < ·)) (kCombinationsList n k) := by
  have hcard :
      {d : List ℕ | ValidCombo n k d ∧ List.Lex (· < ·) (List.range k) d}.ncard ≤
        Nat.choose n k := by
    have hsub : {d : List ℕ | ValidCombo n k d ∧ List.Lex (· < ·) (List.range k) d} ⊆
        {d : List ℕ | ValidCombo n k d} := fun d hd => hd.1
    have hle := Set.ncard_le_ncard hsub (valid_finite n k)
    rw [valid_ncard] at hle
    exact hle
  exact (combosFrom_spec n k hkn (Nat.choose n k) (List.range k)
    (range_valid n k hkn) hcard).2

theorem kCombinationsList_nodup (n k : ℕ) (hkn : k ≤ n) :
    (kCombinationsList n k).Nodup := by
  have hpw := (List.chain'_iff_pairwise).mp (kCombinationsList_chain n k hkn)
  refine hpw.imp (fun h => ?_)
  intro heq
  subst heq
  exact IsAsymm.asymm _ _ h h

theorem kCombinationsList_perm (n k : ℕ) (hkn : k ≤ n) :
    (kCombinationsList n k).Perm (List.sublistsLen k (List.range n)) := by
  rw [List.perm_ext_iff_of_nodup (kCombinationsList_nodup n k hkn)
    (List.nodup_sublistsLen k (List.nodup_range n))]
  intro c
  rw [kCombinationsList_mem n k hkn c, valid_iff_mem_sublistsLen]

theorem kCombinationsList_length (n k : ℕ) (hkn : k ≤ n) :
    (kCombinationsList n k).length = Nat.choose n k := by
  rw [(kCombinationsList_perm n k hkn).length_eq, List.length_sublistsLen,
    List.length_range]

/-- Claim C5: the subset enumerator yields exactly `C(n, k)` subsets, each a
strictly increasing sequence of `k` indices in `[0, n)`, in lexicographic
order starting from `[0, 1, ..., k-1]`, with no subset repeated. -/
theorem kCombinations_enumeration (n k : ℕ) (hkn : k ≤ n) :
    (kCombinationsList n k).length = Nat.choose n k ∧
    (∀ c, c ∈ kCombinationsList n k ↔
      (c.length = k ∧ c.Pairwise (· < ·) ∧ ∀ a ∈ c, a < n)) ∧
    List.Chain' (List.Lex (· < ·)) (kCombinationsList n k) ∧
    (kCombinationsList n k).head? = some (List.range k) ∧
    (kCombinationsList n k).Nodup := by
  refine ⟨kCombinationsList_length n k hkn, kCombinationsList_mem n k hkn,
    kCombinationsList_chain n k hkn, ?_, kCombinationsList_nodup n k hkn⟩
  obtain ⟨t, ht⟩ := combosFrom_cons n k (Nat.choose n k) (List.range k)
  rw [kCombinationsList, ht]
  rfl

/-- Concrete instantiation of `kCombinations_enumeration` at `n = 4`, `k = 2`. -/
theorem kCombinations_enumeration_witness :
    (kCombinationsList 4 2).length = Nat.choose 4 2 :=
  (kCombinations_enumeration 4 2 (by norm_num)).1

/-- Materialize a subset of points from an index combination
(`combo.map((i) => points[i])`). -/
def subsetOf (points : List Point) (combo : List ℕ) : List Point :=
  combo.map (fun i => points.getD i ⟨0, 0⟩)

/-- `counts.set(key, (counts.get(key) || 0) + 1)` on the insertion-ordered
vote map, modelled as an association list: an existing key is updated in
place, a new key is appended. -/
def bumpCount : List (ℤ × ℕ) → ℤ → List (ℤ × ℕ)
  | [], c => [(c, 1)]
  | (key, ct) :: rest, c =>
    if key = c then (key, ct + 1) :: rest else (key, ct) :: bumpCount rest c

/-- `if (!example.has(key)) example.set(key, combo)`. -/
def recordWitness (m : List (ℤ × List ℕ)) (c : ℤ) (combo : List ℕ) :
    List (ℤ × List ℕ) :=
  if m.any (fun e => e.1 == c) then m else m ++ [(c, combo)]

/-- One iteration of the voting loop of `main`: a successful interpolation
casts a vote and possibly records a witness; any thrown error leaves the
state untouched (`catch (_) \x7b\x7d`). -/
def voteStep (points : List Point) (st : List (ℤ × ℕ) × List (ℤ × List ℕ))
    (combo : List ℕ) : List (ℤ × ℕ) × List (ℤ × List ℕ) :=
  match constantViaLagrange (subsetOf points combo) with
  | .ok c => (bumpCount st.1 c, recordWitness st.2 c combo)
  | .error _ => st

/-- The full voting loop over all `k`-subsets, in generator order. -/
def voteLoop (points : List Point) (k : ℕ) :
    List (ℤ × ℕ) × List (ℤ × List ℕ) :=
  (kCombinationsList points.length k).foldl (voteStep points) ([], [])

/-- The best-vote selection of `main` (`if (ct > bestCount)` starting from
`bestCount = -1`): the first entry with a strictly greater count wins. -/
def bestVote (entries : List (ℤ × ℕ)) : Option (ℤ × ℕ) :=
  entries.foldl
    (fun best e =>
      match best with
      | none => some e
      | some b => if e.2 > b.2 then some e else some b)
    none

/-- Voting mode of `main`: throw `No consistent (integer) subsets found` on
an empty tally, otherwise report the winning constant. -/
def runVoting (points : List Point) (k : ℕ) : Except Err ℤ :=
  let st := voteLoop points k
  if st.1.isEmpty then .error .noConsistentSubset
  else
    match bestVote st.1 with
    | some b => .ok b.1
    | none => .error .noConsistentSubset

/-- The sequence of successfully interpolated constants, in subset order. -/
def successList (points : List Point) (k : ℕ) : List ℤ :=
  (kCombinationsList points.length k).filterMap
    (fun combo => (constantViaLagrange (subsetOf points combo)).toOption)

/-- The vote tally obtained from a plain list of successful constants. -/
def buildTally (l : List ℤ) : List (ℤ × ℕ) := l.foldl bumpCount []

/-- Insertion-ordered key lookup in the tally. -/
def lookupCount : List (ℤ × ℕ) → ℤ → ℕ
  | [], _ => 0
  | (key, ct) :: rest, c => if key = c then ct else lookupCount rest c

def keysOf (t : List (ℤ × ℕ)) : List ℤ := t.map Prod.fst

/-- First-occurrence deduplication (the `seen`/`unique` loop of
`parsePickArg`), parametrized by the already-seen keys. -/
def dedupeFirst : List ℤ → List ℤ → List ℤ
  | _, [] => []
  | seen, v :: rest =>
    if v ∈ seen then dedupeFirst seen rest
    else v :: dedupeFirst (v :: seen) rest

theorem bump_lookup_self (t : List (ℤ × ℕ)) (c : ℤ) :
    lookupCount (bumpCount t c) c = lookupCount t c + 1 := by
  induction t with
  | nil => simp [bumpCount, lookupCount]
  | cons e rest ih =>
    obtain ⟨key, ct⟩ := e
    rw [bumpCount]
    by_cases h : key = c
    · rw [if_pos h, lookupCount, if_pos h, lookupCount, if_pos h]
    · rw [if_neg h, lookupCount, if_neg h, lookupCount, if_neg h]
      exact ih

theorem bump_lookup_ne (t : List (ℤ × ℕ)) (c w : ℤ) (hne : w ≠ c) :
    lookupCount (bumpCount t c) w = lookupCount t w := by
  induction t with
  | nil =>
    simp only [bumpCount, lookupCount]
    rw [if_neg (fun hh => hne hh.symm)]
  | cons e rest ih =>
    obtain ⟨key, ct⟩ := e
    rw [bumpCount]
    by_cases h : key = c
    · rw [if_pos h, lookupCount, lookupCount]
      split
      · rename_i hkw
        exact absurd (h.symm.trans hkw) (fun hh => hne hh.symm)
      · rfl
    · rw [if_neg h, lookupCount, lookupCount]
      split
      · rfl
      · exact ih

theorem bump_keys (t : List (ℤ × ℕ)) (c : ℤ) :
    keysOf (bumpCount t c) =
      if c ∈ keysOf t then keysOf t else keysOf t ++ [c] := by
  induction t with
  | nil => simp [bumpCount, keysOf]
  | cons e rest ih =>
    obtain ⟨key, ct⟩ := e
    have hcons : keysOf ((key, ct) :: rest) = key :: keysOf rest := rfl
    rw [bumpCount]
    by_cases h : key = c
    · rw [if_pos h, hcons]
      have hmem : c ∈ key :: keysOf rest := by
        rw [← h]
        exact List.mem_cons_self key _
      rw [if_pos hmem]
      rfl
    · rw [if_neg h]
      have hcons2 : keysOf ((key, ct) :: bumpCount rest c) =
          key :: keysOf (bumpCount rest c) := rfl
      rw [hcons2, ih, hcons]
      by_cases hmem : c ∈ keysOf rest
      · rw [if_pos hmem, if_pos (List.mem_cons_of_mem key hmem)]
      · have hnc : c ∉ key :: keysOf rest := by
          intro hcc
          rcases List.mem_cons.mp hcc with hc1 | hx
          · exact h hc1.symm
          · exact hmem hx
        rw [if_neg hmem, if_neg hnc]
        rfl

theorem bump_ne_nil (t : List (ℤ × ℕ)) (c : ℤ) : bumpCount t c ≠ [] := by
  cases t with
  | nil => simp [bumpCount]
  | cons e rest =>
    obtain ⟨key, ct⟩ := e
    rw [bumpCount]
    split
    · simp
    · simp

theorem foldl_bump_lookup (l : List ℤ) :
    ∀ (t : List (ℤ × ℕ)) (c : ℤ),
      lookupCount (l.foldl bumpCount t) c = lookupCount t c + l.count c := by
  induction l with
  | nil => intro t c; simp
  | cons a l ih =>
    intro t c
    rw [List.foldl_cons, ih, List.count_cons]
    by_cases h : a = c
    · subst h
      rw [bump_lookup_self]
      simp
      omega
    · rw [bump_lookup_ne t a c (fun hh => h hh.symm)]
      simp [h]

theorem foldl_bump_keys (l : List ℤ) :
    ∀ (t : List (ℤ × ℕ)) (seen : List ℤ),
      (∀ x, x ∈ seen ↔ x ∈ keysOf t) →
      keysOf (l.foldl bumpCount t) = keysOf t ++ dedupeFirst seen l := by
  induction l with
  | nil =>
    intro t seen _
    simp [dedupeFirst]
  | cons a l ih =>
    intro t seen hseen
    rw [List.foldl_cons, dedupeFirst]
    by_cases h : a ∈ seen
    · rw [if_pos h]
      have hk : a ∈ keysOf t := (hseen a).mp h
      rw [ih (bumpCount t a) seen (fun x => by rw [hseen x, bump_keys, if_pos hk])]
      rw [bump_keys, if_pos hk]
    · rw [if_neg h]
      have hk : a ∉ keysOf t := fun hh => h ((hseen a).mpr hh)
      have hstep : keysOf (bumpCount t a) = keysOf t ++ [a] := by
        rw [bump_keys, if_neg hk]
      rw [ih (bumpCount t a) (a :: seen) (fun x => by
        rw [hstep]
        simp [List.mem_cons, hseen x]
        constructor
        · rintro (rfl | hx)
          · exact Or.inr rfl
          · exact Or.inl hx
        · rintro (hx | rfl)
          · exact Or.inr hx
          · exact Or.inl rfl)]
      rw [hstep, List.append_assoc]
      rfl

theorem foldl_bump_ne_nil (l : List ℤ) :
    ∀ (t : List (ℤ × ℕ)), t ≠ [] → l.foldl bumpCount t ≠ [] := by
  induction l with
  | nil => intro t h; simpa using h
  | cons a l ih =>
    intro t _
    rw [List.foldl_cons]
    exact ih (bumpCount t a) (bump_ne_nil t a)

theorem voteLoop_fst (points : List Point) (k : ℕ) :
    (voteLoop points k).1 = buildTally (successList points k) := by
  rw [voteLoop, buildTally, successList]
  generalize kCombinationsList points.length k = combos
  have hgen : ∀ (combos : List (List ℕ)) (t : List (ℤ × ℕ)) (w : List (ℤ × List ℕ)),
      (combos.foldl (voteStep points) (t, w)).1 =
        (combos.filterMap
          (fun combo => (constantViaLagrange (subsetOf points combo)).toOption)).foldl
          bumpCount t := by
    intro combos
    induction combos with
    | nil => intro t w; rfl
    | cons combo combos ih =>
      intro t w
      rw [List.foldl_cons, List.filterMap_cons]
      rcases hres : constantViaLagrange (subsetOf points combo) with e | c
      · rw [voteStep, hres]
        exact ih t w
      · rw [voteStep, hres]
        show (combos.foldl (voteStep points) (bumpCount t c, _)).1 = _
        rw [ih]
        rfl
  exact hgen combos [] []


/-- First-max specification: `r` occurs in the tally, every entry inserted
before it has a strictly smaller count, every entry after it a count at most
as large. -/
def FirstMax (l : List (ℤ × ℕ)) (r : ℤ × ℕ) : Prop :=
  ∃ pre post, l = pre ++ r :: post ∧ (∀ e ∈ pre, e.2 < r.2) ∧ (∀ e ∈ post, e.2 ≤ r.2)

theorem bestVote_go (rest : List (ℤ × ℕ)) :
    ∀ b : ℤ × ℕ,
      ∃ r, rest.foldl
          (fun best e =>
            match best with
            | none => some e
            | some b => if e.2 > b.2 then some e else some b)
          (some b) = some r ∧ FirstMax (b :: rest) r := by
  induction rest with
  | nil =>
    intro b
    exact ⟨b, rfl, [], [], rfl, by simp, by simp⟩
  | cons e rest ih =>
    intro b
    rw [List.foldl_cons]
    by_cases h : e.2 > b.2
    · have hstep : (match some b with
          | none => some e
          | some bb => if e.2 > bb.2 then some e else some bb) = some e := by
        simp [h]
      rw [hstep]
      obtain ⟨r, hfold, pre, post, hsplit, hpre, hpost⟩ := ih e
      have her : e.2 ≤ r.2 := by
        cases pre with
        | nil =>
          rw [List.nil_append] at hsplit
          injection hsplit with h1 _
          rw [h1]
        | cons p pre2 =>
          rw [List.cons_append] at hsplit
          injection hsplit with h1 _
          exact le_of_lt (h1 ▸ hpre p (List.mem_cons_self p pre2))
      refine ⟨r, hfold, b :: pre, post, by rw [hsplit, List.cons_append], ?_, hpost⟩
      intro x hx
      rcases List.mem_cons.mp hx with rfl | hx2
      · omega
      · exact hpre x hx2
    · have hstep : (match some b with
          | none => some e
          | some bb => if e.2 > bb.2 then some e else some bb) = some b := by
        simp [h]
      rw [hstep]
      obtain ⟨r, hfold, pre, post, hsplit, hpre, hpost⟩ := ih b
      cases pre with
      | nil =>
        rw [List.nil_append] at hsplit
        injection hsplit with h1 h2
        have hb2 : b.2 = r.2 := by rw [h1]
        refine ⟨r, hfold, [], e :: post,
          by rw [List.nil_append, ← h1, h2], by simp, ?_⟩
        intro x hx
        rcases List.mem_cons.mp hx with rfl | hx2
        · omega
        · exact hpost x hx2
      | cons p pre2 =>
        rw [List.cons_append] at hsplit
        injection hsplit with h1 h2
        have hbr : b.2 < r.2 := by
          rw [h1]
          exact hpre p (List.mem_cons_self p pre2)
        refine ⟨r, hfold, b :: e :: pre2, post, ?_, ?_, hpost⟩
        · rw [List.cons_append, List.cons_append, h2]
        · intro x hx
          rcases List.mem_cons.mp hx with rfl | hx2
          · exact hbr
          · rcases List.mem_cons.mp hx2 with rfl | hx3
            · omega
            · exact hpre x (List.mem_cons_of_mem p hx3)

theorem bestVote_spec (entries : List (ℤ × ℕ)) (hne : entries ≠ []) :
    ∃ r, bestVote entries = some r ∧ FirstMax entries r := by
  cases entries with
  | nil => exact absurd rfl hne
  | cons e rest =>
    rw [bestVote, List.foldl_cons]
    exact bestVote_go rest e

/-- Claim C4: an `ok` result of voting mode is the first entry of the
insertion-ordered tally attaining the maximal vote count; the tally's key
order is the first-occurrence order of the successful constants over the
lexicographically enumerated subsets, and each count is the number of
supporting subsets. -/
theorem voting_winner_selection (points : List Point) (k : ℕ) (c : ℤ)
    (h : runVoting points k = .ok c) :
    (∃ ct, FirstMax (voteLoop points k).1 (c, ct) ∧
      ∀ e ∈ (voteLoop points k).1, e.2 ≤ ct) ∧
    keysOf (voteLoop points k).1 = dedupeFirst [] (successList points k) ∧
    (∀ v : ℤ, lookupCount (voteLoop points k).1 v =
      (successList points k).count v) := by
  refine ⟨?_, ?_, ?_⟩
  · simp only [runVoting] at h
    split at h
    · exact absurd h (by simp)
    · rename_i hnemp
      have hne : (voteLoop points k).1 ≠ [] := by
        intro hh
        exact hnemp (by rw [hh]; rfl)
      obtain ⟨r, hbv, hfm⟩ := bestVote_spec _ hne
      rw [hbv] at h
      have hc : r.1 = c := by
        injection h
      refine ⟨r.2, by rw [← hc]; simpa using hfm, ?_⟩
      obtain ⟨pre, post, hsplit, hpre, hpost⟩ := hfm
      intro e he
      rw [hsplit] at he
      rcases List.mem_append.mp he with hx | hx
      · exact le_of_lt (hpre e hx)
      · rcases List.mem_cons.mp hx with rfl | hx2
        · exact le_refl _
        · exact hpost e hx2
  · rw [voteLoop_fst, buildTally]
    have := foldl_bump_keys (successList points k) [] [] (by simp [keysOf])
    simpa [keysOf] using this
  · intro v
    rw [voteLoop_fst, buildTally, foldl_bump_lookup]
    simp [lookupCount]

/-- Concrete instantiation of `voting_winner_selection` on the points
`(1,5), (2,7), (3,9)` (on the line `2x + 3`) with `k = 2`. -/
theorem voting_winner_selection_witness :
    ∃ ct, FirstMax (voteLoop [⟨1, 5⟩, ⟨2, 7⟩, ⟨3, 9⟩] 2).1 (3, ct) ∧
      ∀ e ∈ (voteLoop [⟨1, 5⟩, ⟨2, 7⟩, ⟨3, 9⟩] 2).1, e.2 ≤ ct :=
  (voting_winner_selection [⟨1, 5⟩, ⟨2, 7⟩, ⟨3, 9⟩] 2 3 (by decide)).1

/-- Claim C7: a subset whose interpolation attempt throws is silently
discarded (the voting state is unchanged and the loop continues with the
next subset), and the run fails with `No consistent (integer) subsets found`
exactly when no subset produces an integral result. -/
theorem voting_discards_failures (points : List Point) (k : ℕ) :
    (∀ st combo e, constantViaLagrange (subsetOf points combo) = .error e →
      voteStep points st combo = st) ∧
    (voteLoop points k).1 = buildTally (successList points k) ∧
    (runVoting points k = .error .noConsistentSubset ↔
      ∀ combo ∈ kCombinationsList points.length k,
        (constantViaLagrange (subsetOf points combo)).toOption = none) := by
  refine ⟨?_, voteLoop_fst points k, ?_⟩
  · intro st combo e he
    rw [voteStep, he]
  · rw [← List.filterMap_eq_nil_iff]
    show _ ↔ successList points k = []
    constructor
    · intro h
      by_contra hne
      have hcounts : (voteLoop points k).1 ≠ [] := by
        rw [voteLoop_fst, buildTally]
        cases hsl : successList points k with
        | nil => exact absurd hsl hne
        | cons a l =>
          rw [List.foldl_cons]
          exact foldl_bump_ne_nil l _ (bump_ne_nil [] a)
      simp only [runVoting] at h
      split at h
      · rename_i hemp
        exact hcounts (by simpa using hemp)
      · rename_i hemp
        obtain ⟨r, hbv, _⟩ := bestVote_spec (voteLoop points k).1
          (fun hh => hemp (by rw [hh]; rfl))
        rw [hbv] at h
        exact absurd h (by simp)
    · intro h
      have hcounts : (voteLoop points k).1 = [] := by
        rw [voteLoop_fst, h]
        rfl
      simp only [runVoting]
      rw [if_pos (by rw [hcounts]; rfl)]

/-- Claim C8: any subset containing two points with the same `x`-coordinate
makes the Lagrange attempt throw `Division by zero`, and in voting mode such
a subset leaves the tally untouched. -/
theorem duplicate_x_division_by_zero :
    (∀ (pts : List Point) (i j : ℕ) (hi : i < pts.length) (hj : j < pts.length),
      i ≠ j → pts[i].x = pts[j].x →
      constantViaLagrange pts = .error .divisionByZero) ∧
    (∀ (points : List Point) (st : List (ℤ × ℕ) × List (ℤ × List ℕ))
      (combo : List ℕ) (i j : ℕ) (hi : i < (subsetOf points combo).length)
      (hj : j < (subsetOf points combo).length), i ≠ j →
      (subsetOf points combo)[i].x = (subsetOf points combo)[j].x →
      voteStep points st combo = st) := by
  refine ⟨fun pts i j hi hj hij hxx => lagrange_dup_err pts i j hi hj hij hxx, ?_⟩
  intro points st combo i j hi hj hij hxx
  rw [voteStep, lagrange_dup_err _ i j hi hj hij hxx]

/-- Concrete instantiation of `duplicate_x_division_by_zero` on the subset
`[(1,5),(1,9),(2,13)]` with the repeated `x = 1`. -/
theorem duplicate_x_division_by_zero_witness :
    constantViaLagrange [⟨1, 5⟩, ⟨1, 9⟩, ⟨2, 13⟩] = .error .divisionByZero :=
  duplicate_x_division_by_zero.1 [⟨1, 5⟩, ⟨1, 9⟩, ⟨2, 13⟩] 0 1
    (by norm_num) (by norm_num) (by norm_num) rfl

/-- Claim C6 counterexample: voting mode is not order-independent as stated.
With `k = 1` and the two points `(1,5)` and `(2,7)`, every candidate gets one
vote; the winner is the first-seen candidate, so the two orders of the same
point set give different winning values. -/
theorem voting_order_dependent_counterexample :
    ([⟨1, 5⟩, ⟨2, 7⟩] : List Point).Perm [⟨2, 7⟩, ⟨1, 5⟩] ∧
    runVoting [⟨1, 5⟩, ⟨2, 7⟩] 1 = .ok 5 ∧
    runVoting [⟨2, 7⟩, ⟨1, 5⟩] 1 = .ok 7 := by
  refine ⟨by decide, by decide, by decide⟩

/-- The binary exponentiation loop of `powBI`
(`while (e > 0n) { if (e & 1n) r *= b; b *= b; e >>= 1n }`), with structural
fuel; the exponent at least halves each iteration, so `e` is enough fuel. -/
def powLoop : ℕ → ℤ → ℤ → ℕ → ℤ
  | 0, r, _, _ => r
  | fuel + 1, r, b, e =>
    if e = 0 then r else powLoop fuel (if e % 2 = 1 then r * b else r) (b * b) (e / 2)

def powBI (b : ℤ) (e : ℕ) : ℤ := powLoop e 1 b e

theorem powLoop_eq : ∀ (fuel e : ℕ), e ≤ fuel → ∀ (r b : ℤ), powLoop fuel r b e = r * b ^ e := by
  intro fuel
  induction fuel with
  | zero =>
    intro e he r b
    have he0 : e = 0 := by omega
    subst he0
    rw [powLoop, pow_zero, mul_one]
  | succ fuel ih =>
    intro e he r b
    rw [powLoop]
    split
    · rename_i h0
      subst h0
      rw [pow_zero, mul_one]
    · rename_i h0
      have hlt : e / 2 ≤ fuel := by omega
      rw [ih (e / 2) hlt]
      have hsplit : e = 2 * (e / 2) + e % 2 := by omega
      by_cases hpar : e % 2 = 1
      · rw [if_pos hpar]
        calc r * b * (b * b) ^ (e / 2) = r * ((b ^ 2) ^ (e / 2) * b) := by
              rw [sq]
              ring
          _ = r * b ^ (2 * (e / 2) + 1) := by
              rw [← pow_mul, pow_succ]
          _ = r * b ^ e := by
              rw [← hpar]
              rw [← hsplit]
      · rw [if_neg hpar]
        have hpar0 : e % 2 = 0 := by omega
        calc r * (b * b) ^ (e / 2) = r * (b ^ 2) ^ (e / 2) := by rw [sq]
          _ = r * b ^ (2 * (e / 2)) := by rw [← pow_mul]
          _ = r * b ^ e := by
              rw [show 2 * (e / 2) = e by omega]

theorem powBI_eq (b : ℤ) (e : ℕ) : powBI b e = b ^ e := by
  rw [powBI, powLoop_eq e e (le_refl e), one_mul]

/-- `vandermondeRow` from the substitution solver: `[x^m, ..., x^1, 1]`. -/
def vandermondeRow (x : ℤ) (m : ℕ) : List Frac :=
  ((List.range m).map (fun t => Frac.fromBI (powBI x (m - t)))) ++ [Frac.fromBI 1]

/-- The pivot scan of `solveFracSystem`
(`for (r = col; r < k; r++) if (M[r][col].n !== 0n) { piv = r; break }`),
starting at row `r` with the remaining row count as fuel; defaults to `col`. -/
def findPivotFrom (M : ℕ → ℕ → Frac) (col : ℕ) : ℕ → ℕ → ℕ
  | _, 0 => col
  | r, fuel + 1 => if (M r col).n ≠ 0 then r else findPivotFrom M col (r + 1) fuel

def findPivot (M : ℕ → ℕ → Frac) (k col : ℕ) : ℕ := findPivotFrom M col col (k - col)

def swapRows (M : ℕ → ℕ → Frac) (r1 r2 : ℕ) : ℕ → ℕ → Frac :=
  fun r c => if r = r1 then M r2 c else if r = r2 then M r1 c else M r c

/-- Pivot-row normalization of `solveFracSystem`
(`for (c = col; c <= k; c++) M[col][c] = M[col][c].div(pivotVal)`). -/
def elimNormalize (k : ℕ) (M1 : ℕ → ℕ → Frac) (col : ℕ) (p : Frac) (h : p.n ≠ 0) :
    ℕ → ℕ → Frac :=
  fun r c => if r = col ∧ col ≤ c ∧ c ≤ k then (M1 r c).divP p h else M1 r c

/-- Elimination below the pivot row
(`M[r][c] = M[r][c].sub(factor.mul(M[col][c]))`, skipping rows whose factor
is already zero). -/
def elimBelow (k : ℕ) (M2 : ℕ → ℕ → Frac) (col : ℕ) : ℕ → ℕ → Frac :=
  fun r c =>
    if col < r ∧ r < k ∧ (M2 r col).n ≠ 0 ∧ col ≤ c ∧ c ≤ k then
      (M2 r c).sub ((M2 r col).mul (M2 col c))
    else M2 r c

/-- One column of the forward elimination of `solveFracSystem`: find a pivot
(`Singular matrix` if the column is all zero from `col` down), swap it into
place, normalize the pivot row over columns `col..k`, and eliminate the rows
below. -/
def elimCol (k : ℕ) (M : ℕ → ℕ → Frac) (col : ℕ) : Except Err (ℕ → ℕ → Frac) :=
  if h : (M (findPivot M k col) col).n = 0 then .error .singularMatrix
  else
    .ok (elimBelow k
      (elimNormalize k (swapRows M col (findPivot M k col)) col
        (M (findPivot M k col) col) h)
      col)

/-- `sum = sum.add(M[r][c].mul(x[c]))` over `c = r+1 .. k-1`. -/
def sumRow (M : ℕ → ℕ → Frac) (k : ℕ) (x : ℕ → Frac) (r : ℕ) : Frac :=
  (List.range' (r + 1) (k - (r + 1))).foldl
    (fun s c => s.add ((M r c).mul (x c))) (Frac.fromBI 0)

/-- Back substitution of `solveFracSystem`, processing rows from `k-1` down;
after `s` steps rows `k-s .. k-1` are filled
(`x[r] = M[r][k].sub(sum)`, the pivot being `1` after normalization). -/
def backSubst (M : ℕ → ℕ → Frac) (k : ℕ) : ℕ → ℕ → Frac
  | 0 => fun _ => Frac.fromBI 0
  | s + 1 => fun i =>
    if i = k - (s + 1) then
      (M (k - (s + 1)) k).sub (sumRow M k (backSubst M k s) (k - (s + 1)))
    else backSubst M k s i

/-- `solveFracSystem` from the substitution solver: Gaussian elimination with
row pivoting on the augmented matrix `[A | b]` over exact fractions. -/
def solveFracSystem (A : List (List Frac)) (b : List Frac) : Except Err (List Frac) := do
  let k := A.length
  let M0 : ℕ → ℕ → Frac := fun r c =>
    if c < k then (A.getD r []).getD c (Frac.fromBI 0) else b.getD r (Frac.fromBI 0)
  let M ← (List.range k).foldlM (fun M col => elimCol k M col) M0
  pure ((List.range k).map (backSubst M k k))

/-- `solveForIndices` from `solveBySubstitution`: build the Vandermonde rows
and right-hand side for the selected point indices and solve. -/
def solveForIndices (points : List Point) (m : ℕ) (idxs : List ℕ) :
    Except Err (List Frac) :=
  let xs := points.map Point.x
  let ys := points.map Point.y
  let rows := idxs.map (fun ii => vandermondeRow (xs.getD ii 0) m)
  let rhs := idxs.map (fun ii => Frac.fromBI (ys.getD ii 0))
  solveFracSystem rows rhs

/-- The hardcoded "consistent" x-values of the substitution solver's direct
path (`{1,3,4,5,6,7,9,10}`, excluding the outliers `x=2,8` of one dataset). -/
def consistentXValues : List ℤ := [1, 3, 4, 5, 6, 7, 9, 10]

/-- The index-collection loop of the direct path: for each hardcoded target
in order, push the index of the matching point if present, stopping as soon
as `k` indices are collected. -/
def collectConsistent (points : List Point) (k : ℕ) : List ℤ → List ℕ → List ℕ
  | [], acc => acc
  | t :: ts, acc =>
    let acc2 :=
      match points.findIdx? (fun p => p.x == t) with
      | some i => acc ++ [i]
      | none => acc
    if acc2.length = k then acc2 else collectConsistent points k ts acc2

/-- The non-voting (direct) path of `solveBySubstitution`: use the hardcoded
consistent x-values when at least `k` are present, otherwise silently fall
back to the first `k` points by index. -/
def solveBySubstitutionDirect (points : List Point) (k : ℕ) :
    Except Err (List Frac × List ℕ) :=
  let idxs := collectConsistent points k consistentXValues []
  if idxs.length < k then
    (solveForIndices points (k - 1) (List.range k)).map (fun cs => (cs, List.range k))
  else
    (solveForIndices points (k - 1) idxs).map (fun cs => (cs, idxs))

/-- Indices of the points matching the hardcoded x-values, in target order. -/
def matchedIndices (points : List Point) : List ℕ :=
  consistentXValues.filterMap (fun t => points.findIdx? (fun p => p.x == t))

theorem collectConsistent_eq (points : List Point) (k : ℕ) :
    ∀ (ts : List ℤ) (acc : List ℕ), acc.length < k →
      collectConsistent points k ts acc =
        (acc ++ ts.filterMap (fun t => points.findIdx? (fun p => p.x == t))).take k := by
  intro ts
  induction ts with
  | nil =>
    intro acc hlt
    rw [collectConsistent, List.filterMap_nil, List.append_nil,
      List.take_of_length_le (by omega)]
  | cons t ts ih =>
    intro acc hlt
    rw [collectConsistent, List.filterMap_cons]
    rcases hfi : points.findIdx? (fun p => p.x == t) with _ | i
    · rw [hfi]
      show (if acc.length = k then acc else collectConsistent points k ts acc) = _
      rw [if_neg (by omega)]
      exact ih acc hlt
    · rw [hfi]
      show (if (acc ++ [i]).length = k then acc ++ [i]
          else collectConsistent points k ts (acc ++ [i])) =
        List.take k (acc ++
          (i :: ts.filterMap (fun t => points.findIdx? (fun p => p.x == t))))
      have hsplit : acc ++
          (i :: ts.filterMap (fun t => points.findIdx? (fun p => p.x == t))) =
          (acc ++ [i]) ++ ts.filterMap (fun t => points.findIdx? (fun p => p.x == t)) := by
        rw [List.append_assoc]
        rfl
      rw [hsplit]
      by_cases hk : (acc ++ [i]).length = k
      · rw [if_pos hk, ← hk, List.take_left]
      · rw [if_neg hk]
        have hlt2 : (acc ++ [i]).length < k := by
          rw [List.length_append] at hk ⊢
          simp at hk ⊢
          omega
        rw [ih (acc ++ [i]) hlt2]

/-- Claim C9: in the direct path of the substitution solver, when fewer than
`k` of the hardcoded x-values are present the solver silently solves with the
first `k` points by index; otherwise it solves with the first `k` indices
matching the hardcoded x-values. -/
theorem direct_path_hardcoded_fallback (points : List Point) (k : ℕ) (hk : 0 < k) :
    ((matchedIndices points).length < k →
      solveBySubstitutionDirect points k =
        (solveForIndices points (k - 1) (List.range k)).map
          (fun cs => (cs, List.range k))) ∧
    (k ≤ (matchedIndices points).length →
      solveBySubstitutionDirect points k =
        (solveForIndices points (k - 1) ((matchedIndices points).take k)).map
          (fun cs => (cs, (matchedIndices points).take k))) := by
  have hcoll : collectConsistent points k consistentXValues [] =
      (matchedIndices points).take k := by
    rw [collectConsistent_eq points k consistentXValues [] (by simpa using hk)]
    rfl
  constructor
  · intro hlt
    rw [solveBySubstitutionDirect, hcoll]
    rw [if_pos (by rw [List.take_of_length_le (by omega)]; omega)]
  · intro hge
    rw [solveBySubstitutionDirect, hcoll]
    rw [if_neg (by rw [List.length_take]; omega)]

/-- Concrete instantiation of `direct_path_hardcoded_fallback`: with the two
points `(20, 3)` and `(30, 4)` none of the hardcoded x-values is present, and
the direct path solves with the first two points. -/
theorem direct_path_hardcoded_fallback_witness :
    solveBySubstitutionDirect [⟨20, 3⟩, ⟨30, 4⟩] 2 =
      (solveForIndices [⟨20, 3⟩, ⟨30, 4⟩] 1 (List.range 2)).map
        (fun cs => (cs, List.range 2)) :=
  (direct_path_hardcoded_fallback [⟨20, 3⟩, ⟨30, 4⟩] 2 (by norm_num)).1 (by decide)

theorem dedupeFirst_length_le : ∀ (l seen : List ℤ),
    (dedupeFirst seen l).length ≤ l.length := by
  intro l
  induction l with
  | nil => intro seen; simp [dedupeFirst]
  | cons v rest ih =>
    intro seen
    rw [dedupeFirst]
    split
    · exact le_trans (ih seen) (by simp)
    · simpa using ih (v :: seen)

theorem dedupeFirst_length_lt : ∀ (l seen : List ℤ),
    (¬ l.Nodup ∨ ∃ x ∈ l, x ∈ seen) →
    (dedupeFirst seen l).length < l.length := by
  intro l
  induction l with
  | nil =>
    intro seen h
    rcases h with h | ⟨x, hx, _⟩
    · exact absurd List.nodup_nil h
    · exact absurd hx (List.not_mem_nil x)
  | cons v rest ih =>
    intro seen h
    rw [dedupeFirst]
    split
    · rename_i hv
      have := dedupeFirst_length_le rest seen
      simp only [List.length_cons]
      omega
    · rename_i hv
      simp only [List.length_cons, Nat.succ_lt_succ_iff]
      refine ih (v :: seen) ?_
      rcases h with h | ⟨x, hx, hxs⟩
      · rw [List.nodup_cons] at h
        push_neg at h
        by_cases hvr : v ∈ rest
        · exact Or.inr ⟨v, hvr, List.mem_cons_self v seen⟩
        · exact Or.inl (h hvr)
      · rcases List.mem_cons.mp hx with rfl | hxr
        · exact absurd hxs hv
        · exact Or.inr ⟨x, hxr, List.mem_cons_of_mem v hxs⟩

theorem dedupeFirst_nodup : ∀ (l seen : List ℤ),
    (dedupeFirst seen l).Nodup ∧ ∀ x ∈ dedupeFirst seen l, x ∉ seen := by
  intro l
  induction l with
  | nil => intro seen; simp [dedupeFirst]
  | cons v rest ih =>
    intro seen
    rw [dedupeFirst]
    split
    · exact ih seen
    · rename_i hv
      obtain ⟨hnd, hns⟩ := ih (v :: seen)
      constructor
      · rw [List.nodup_cons]
        refine ⟨fun hmem => ?_, hnd⟩
        exact hns v hmem (List.mem_cons_self v seen)
      · intro x hx
        rcases List.mem_cons.mp hx with rfl | hx2
        · exact hv
        · exact fun hxs => hns x hx2 (List.mem_cons_of_mem v hxs)

theorem dedupeFirst_subset : ∀ (l seen : List ℤ) (x : ℤ),
    x ∈ dedupeFirst seen l → x ∈ l := by
  intro l
  induction l with
  | nil => intro seen x hx; simpa [dedupeFirst] using hx
  | cons v rest ih =>
    intro seen x hx
    rw [dedupeFirst] at hx
    split at hx
    · exact List.mem_cons_of_mem v (ih seen x hx)
    · rcases List.mem_cons.mp hx with rfl | hx2
      · exact List.mem_cons_self x rest
      · exact List.mem_cons_of_mem v (ih (v :: seen) x hx2)

/-- Index map built by the `--pick` branch of `main`
(`new Map(points.map((p, i) => [p.x.toString(), i]))`); later entries
overwrite earlier ones. -/
def lookupPointIdx (points : List Point) (x : ℤ) : Option ℕ :=
  points.enum.foldl (fun acc e => if e.2.x = x then some e.1 else acc) none

/-- Key resolution of the `--pick` branch: each picked key maps to the point
at its index; a missing key throws (`--pick refers to missing x=...`). -/
def resolvePick (points : List Point) : List ℤ → Except Err (List Point)
  | [] => .ok []
  | x :: rest =>
    match lookupPointIdx points x with
    | some i =>
      match resolvePick points rest with
      | .ok subset => .ok (points.getD i ⟨0, 0⟩ :: subset)
      | .error e => .error e
    | none => .error .unknownKey

/-- The `--pick` path of `main`: dedupe the keys (`parsePickArg`), check the
subset size, resolve the keys, run one interpolation. -/
def runPick (points : List Point) (k : ℕ) (keys : List ℤ) : Except Err ℤ :=
  let chosen := dedupeFirst [] keys
  if chosen.length ≠ k then .error .wrongSubsetSize
  else
    match resolvePick points chosen with
    | .ok subset => constantViaLagrange subset
    | .error e => .error e

theorem lookupPointIdx_x (points : List Point) (x : ℤ) :
    ∀ i, lookupPointIdx points x = some i → (points.getD i ⟨0, 0⟩).x = x := by
  have hgen : ∀ (l : List (ℕ × Point)) (acc : Option ℕ),
      (∀ e ∈ l, points.getD e.1 ⟨0, 0⟩ = e.2) →
      (∀ i, acc = some i → (points.getD i ⟨0, 0⟩).x = x) →
      ∀ i, l.foldl (fun acc e => if e.2.x = x then some e.1 else acc) acc = some i →
        (points.getD i ⟨0, 0⟩).x = x := by
    intro l
    induction l with
    | nil =>
      intro acc _ hacc i hi
      exact hacc i hi
    | cons e l ih =>
      intro acc hl hacc i hi
      rw [List.foldl_cons] at hi
      refine ih (if e.2.x = x then some e.1 else acc)
        (fun e2 he2 => hl e2 (List.mem_cons_of_mem e he2)) ?_ i hi
      intro j hj
      split at hj
      · rename_i hex
        injection hj with hj
        subst hj
        rw [hl e (List.mem_cons_self e l)]
        exact hex
      · exact hacc j hj
  intro i hi
  refine hgen points.enum none ?_ (fun j hj => by exact absurd hj (by simp)) i hi
  intro e he
  obtain ⟨j, hjlt, hje⟩ := List.mem_iff_getElem.mp he
  rw [List.getElem_enum] at hje
  subst hje
  exact List.getD_eq_getElem points ⟨0, 0⟩ (by
    have := List.enum_length (l := points)
    omega)

theorem resolvePick_map_x (points : List Point) :
    ∀ (keys : List ℤ) (subset : List Point),
      resolvePick points keys = .ok subset → subset.map Point.x = keys := by
  intro keys
  induction keys with
  | nil =>
    intro subset h
    rw [resolvePick] at h
    injection h with h
    rw [← h]
    rfl
  | cons x rest ih =>
    intro subset h
    rw [resolvePick] at h
    rcases hli : lookupPointIdx points x with _ | i
    · rw [hli] at h
      exact absurd h (by simp)
    · rw [hli] at h
      rcases hrest : resolvePick points rest with e | sub2
      · rw [hrest] at h
        exact absurd h (by simp)
      · rw [hrest] at h
        injection h with h
        rw [← h, List.map_cons, ih sub2 hrest, lookupPointIdx_x points x i hli]

/-- Claim C10: `--pick` keys are deduplicated (first occurrences kept) before
the subset-size check, so a `k`-entry pick list containing a repeated key
fails with the wrong-subset-size error before any interpolation arithmetic;
consequently a resolved pick subset never contains a repeated
`x`-coordinate. -/
theorem pick_dedupe_prevents_duplicates :
    (∀ (points : List Point) (k : ℕ) (keys : List ℤ),
      keys.length = k → ¬ keys.Nodup →
      runPick points k keys = .error .wrongSubsetSize) ∧
    (∀ (points : List Point) (keys : List ℤ) (subset : List Point),
      resolvePick points (dedupeFirst [] keys) = .ok subset →
      (subset.map Point.x).Nodup) := by
  constructor
  · intro points k keys hlen hdup
    have hlt : (dedupeFirst [] keys).length < keys.length :=
      dedupeFirst_length_lt keys [] (Or.inl hdup)
    rw [runPick]
    rw [if_pos (by omega)]
  · intro points keys subset h
    rw [resolvePick_map_x points (dedupeFirst [] keys) subset h]
    exact (dedupeFirst_nodup keys []).1

/-- Concrete instantiation of `pick_dedupe_prevents_duplicates`: the pick
list `1,1,2` with `k = 3` fails with the wrong-subset-size error. -/
theorem pick_dedupe_prevents_duplicates_witness :
    runPick [⟨1, 5⟩, ⟨2, 7⟩, ⟨3, 9⟩] 3 [1, 1, 2] = .error .wrongSubsetSize :=
  pick_dedupe_prevents_duplicates.1 [⟨1, 5⟩, ⟨2, 7⟩, ⟨3, 9⟩] 3 [1, 1, 2] rfl
    (by decide)

theorem nodupInjOn (l : List Point) (hnd : (l.map Point.x).Nodup) :
    Set.InjOn (fun j => (((l.map Point.x).getD j 0 : ℤ) : ℚ))
      (Finset.range l.length) := by
  intro a ha b hb hab
  simp only [Finset.coe_range, Set.mem_Iio] at ha hb
  by_contra hne
  have hab2 : (((l.map Point.x).getD a 0 : ℤ) : ℚ) =
      (((l.map Point.x).getD b 0 : ℤ) : ℚ) := hab
  have hcast : (l.map Point.x).getD a 0 = (l.map Point.x).getD b 0 := by
    exact_mod_cast hab2
  have hlen : (l.map Point.x).length = l.length := List.length_map _ _
  exact nodup_getD_ne _ hnd a b (by omega) (by omega) hne hcast

theorem exists_dup (l : List Point) (hnd : ¬ (l.map Point.x).Nodup) :
    ∃ (i j : ℕ) (hi : i < l.length) (hj : j < l.length),
      i ≠ j ∧ l[i].x = l[j].x := by
  rw [List.nodup_iff_injective_get, Function.not_injective_iff] at hnd
  obtain ⟨a, b, hab, hne⟩ := hnd
  have hlen : (l.map Point.x).length = l.length := List.length_map _ _
  have ha := a.isLt
  have hb := b.isLt
  refine ⟨a.val, b.val, by omega, by omega, fun h => hne (Fin.ext h), ?_⟩
  rw [List.get_eq_getElem, List.get_eq_getElem, List.getElem_map, List.getElem_map] at hab
  exact hab

theorem lagSumQ_perm (l l' : List Point) (hperm : l.Perm l')
    (hnd : (l.map Point.x).Nodup) (hnd' : (l'.map Point.x).Nodup) :
    lagSumQ (l.map Point.x) (l.map Point.y) l.length =
      lagSumQ (l'.map Point.x) (l'.map Point.y) l'.length := by
  classical
  rw [lagSumQ_eq_eval_interpolate, lagSumQ_eq_eval_interpolate]
  have hpoly :
      Lagrange.interpolate (Finset.range l.length)
        (fun j => (((l.map Point.x).getD j 0 : ℤ) : ℚ))
        (fun j => (((l.map Point.y).getD j 0 : ℤ) : ℚ)) =
      Lagrange.interpolate (Finset.range l'.length)
        (fun j => (((l'.map Point.x).getD j 0 : ℤ) : ℚ))
        (fun j => (((l'.map Point.y).getD j 0 : ℤ) : ℚ)) := by
    refine Polynomial.eq_of_degrees_lt_of_eval_index_eq (Finset.range l.length)
      (nodupInjOn l hnd) ?_ ?_ ?_
    · exact Lagrange.degree_interpolate_lt _ (nodupInjOn l hnd)
    · have h2 := Lagrange.degree_interpolate_lt
        (fun j => (((l'.map Point.y).getD j 0 : ℤ) : ℚ)) (nodupInjOn l' hnd')
      rw [Finset.card_range] at h2 ⊢
      rw [hperm.length_eq]
      exact h2
    · intro i hi
      have hik : i < l.length := Finset.mem_range.mp hi
      rw [Lagrange.eval_interpolate_at_node _ (nodupInjOn l hnd) hi]
      have hmem : l[i] ∈ l' := hperm.mem_iff.mp (l.getElem_mem hik)
      obtain ⟨j, hj, hje⟩ := List.mem_iff_getElem.mp hmem
      have hvx : (((l.map Point.x).getD i 0 : ℤ) : ℚ) =
          (((l'.map Point.x).getD j 0 : ℤ) : ℚ) := by
        rw [List.getD_eq_getElem _ _ (by simpa using hik),
          List.getD_eq_getElem _ _ (by simpa using hj),
          List.getElem_map, List.getElem_map, hje]
      rw [hvx, Lagrange.eval_interpolate_at_node _ (nodupInjOn l' hnd')
        (Finset.mem_range.mpr (by simpa using hj))]
      rw [List.getD_eq_getElem _ _ (by simpa using hik),
        List.getD_eq_getElem _ _ (by simpa using hj),
        List.getElem_map, List.getElem_map, hje]
  rw [hpoly]

/-- The result of `constantViaLagrange` depends only on the multiset of
points: it is invariant under permutation of its input list. -/
theorem constantViaLagrange_perm (l l' : List Point) (hperm : l.Perm l') :
    constantViaLagrange l = constantViaLagrange l' := by
  by_cases hnd : (l.map Point.x).Nodup
  · have hnd' : (l'.map Point.x).Nodup := ((hperm.map Point.x).nodup_iff).mp hnd
    obtain ⟨acc, hval, hres⟩ := constantViaLagrange_char l hnd
    obtain ⟨acc', hval', hres'⟩ := constantViaLagrange_char l' hnd'
    have hs : acc.toRat = acc'.toRat := by
      rw [hval, hval']
      exact lagSumQ_perm l l' hperm hnd hnd'
    rw [hres, hres']
    by_cases hd : acc.d = 1
    · have h2 : acc'.toRat = ((acc.n : ℤ) : ℚ) := by
        rw [← hs, Frac.toRat_int acc hd]
      obtain ⟨hd', hn'⟩ := Frac.eq_intCast h2
      rw [if_pos hd, if_pos hd', hn']
    · have hd' : acc'.d ≠ 1 := by
        intro hone
        have h2 : acc.toRat = ((acc'.n : ℤ) : ℚ) := by
          rw [hs, Frac.toRat_int acc' hone]
        exact hd (Frac.eq_intCast h2).1
      rw [if_neg hd, if_neg hd']
  · have hnd' : ¬ (l'.map Point.x).Nodup :=
      fun h => hnd (((hperm.map Point.x).nodup_iff).mpr h)
    obtain ⟨i, j, hi, hj, hij, hxx⟩ := exists_dup l hnd
    obtain ⟨i2, j2, hi2, hj2, hij2, hxx2⟩ := exists_dup l' hnd'
    rw [lagrange_dup_err l i j hi hj hij hxx,
      lagrange_dup_err l' i2 j2 hi2 hj2 hij2 hxx2]

theorem sublistsLen_map_pts (f : ℕ → Point) :
    ∀ (l : List ℕ) (n : ℕ),
      List.sublistsLen n (l.map f) = (List.sublistsLen n l).map (List.map f) := by
  intro l
  induction l with
  | nil =>
    intro n
    cases n with
    | zero => rfl
    | succ n => rw [List.map_nil, List.sublistsLen_succ_nil, List.sublistsLen_succ_nil]; rfl
  | cons a l ih =>
    intro n
    cases n with
    | zero => rw [List.sublistsLen_zero, List.sublistsLen_zero]; rfl
    | succ n =>
      rw [List.map_cons, List.sublistsLen_succ_cons, List.sublistsLen_succ_cons,
        List.map_append, ih (n + 1), ih n, List.map_map, List.map_map]
      rfl

theorem self_eq_range_map (p : List Point) :
    p = (List.range p.length).map (fun i => p.getD i ⟨0, 0⟩) := by
  refine List.ext_getElem (by simp) ?_
  intro i h1 h2
  rw [List.getElem_map, List.getElem_range, List.getD_eq_getElem _ _ h1]

theorem count_filterMap (f : List ℕ → Option ℤ) (c : ℤ) :
    ∀ l : List (List ℕ),
      (l.filterMap f).count c = l.countP (fun a => f a == some c) := by
  intro l
  induction l with
  | nil => rfl
  | cons a l ih =>
    rw [List.filterMap_cons, List.countP_cons]
    rcases hfa : f a with _ | b
    · rw [ih]
      simp
    · rw [List.count_cons, ih]
      rfl

/-- `constantViaLagrange` lifted to multisets of points, well defined by
`constantViaLagrange_perm`. -/
def evalM (m : Multiset Point) : Except Err ℤ :=
  Quotient.liftOn m constantViaLagrange (fun a b h => constantViaLagrange_perm a b h)

theorem countP_sublistsLen_eq_multiset (c : ℤ) (pts : List Point) (k : ℕ) :
    (List.sublistsLen k pts).countP
        (fun sub => (constantViaLagrange sub).toOption == some c) =
      Multiset.countP (fun m => (evalM m).toOption = some c)
        (Multiset.powersetCard k (↑pts : Multiset Point)) := by
  rw [Multiset.powersetCard_coe, Multiset.coe_countP, List.countP_map]
  refine List.countP_congr ?_
  intro sub _
  show ((constantViaLagrange sub).toOption == some c) = true ↔
    decide ((evalM ↑sub).toOption = some c) = true
  have he : evalM (↑sub : Multiset Point) = constantViaLagrange sub := rfl
  rw [he]
  rw [beq_iff_eq, decide_eq_true_iff]

/-- The per-candidate vote count is invariant under permutation of the input
point sequence. -/
theorem successList_count_perm (p p' : List Point) (k : ℕ)
    (hkn : k ≤ p.length) (hperm : p.Perm p') (c : ℤ) :
    (successList p k).count c = (successList p' k).count c := by
  have hkn' : k ≤ p'.length := hperm.length_eq ▸ hkn
  have hchain : ∀ (q : List Point), k ≤ q.length →
      (successList q k).count c =
        Multiset.countP (fun m => (evalM m).toOption = some c)
          (Multiset.powersetCard k (↑q : Multiset Point)) := by
    intro q hq
    rw [successList, count_filterMap]
    rw [(kCombinationsList_perm q.length k hq).countP_eq]
    have h1 : List.sublistsLen k q =
        (List.sublistsLen k (List.range q.length)).map
          (List.map (fun i => q.getD i ⟨0, 0⟩)) := by
      conv_lhs => rw [self_eq_range_map q]
      exact sublistsLen_map_pts _ _ k
    rw [← countP_sublistsLen_eq_multiset c q k, h1, List.countP_map]
    rfl
  rw [hchain p hkn, hchain p' hkn']
  rw [Multiset.coe_eq_coe.mpr hperm]

theorem dedupeFirst_mem_of_mem : ∀ (l seen : List ℤ) (x : ℤ),
    x ∈ l → x ∉ seen → x ∈ dedupeFirst seen l := by
  intro l
  induction l with
  | nil =>
    intro seen x hx _
    exact absurd hx (List.not_mem_nil x)
  | cons v rest ih =>
    intro seen x hx hxs
    rw [dedupeFirst]
    split
    · rename_i hv
      rcases List.mem_cons.mp hx with rfl | hx2
      · exact absurd hv hxs
      · exact ih seen x hx2 hxs
    · rename_i hv
      by_cases hxv : x = v
      · subst hxv
        exact List.mem_cons_self x _
      · rcases List.mem_cons.mp hx with rfl | hx2
        · exact absurd rfl hxv
        · refine List.mem_cons_of_mem v (ih (v :: seen) x hx2 ?_)
          intro hmem
          rcases List.mem_cons.mp hmem with h3 | h3
          · exact hxv h3
          · exact hxs h3

theorem firstMax_le (t : List (ℤ × ℕ)) (r : ℤ × ℕ) (h : FirstMax t r) :
    r ∈ t ∧ ∀ e ∈ t, e.2 ≤ r.2 := by
  obtain ⟨pre, post, hsplit, hpre, hpost⟩ := h
  constructor
  · rw [hsplit]
    exact List.mem_append.mpr (Or.inr (List.mem_cons_self r post))
  · intro e he
    rw [hsplit] at he
    rcases List.mem_append.mp he with hx | hx
    · exact le_of_lt (hpre e hx)
    · rcases List.mem_cons.mp hx with rfl | hx2
      · exact le_refl _
      · exact hpost e hx2

theorem lookup_of_mem_nodup : ∀ (t : List (ℤ × ℕ)), (keysOf t).Nodup →
    ∀ (c : ℤ) (ct : ℕ), (c, ct) ∈ t → lookupCount t c = ct := by
  intro t
  induction t with
  | nil =>
    intro _ c ct h
    exact absurd h (List.not_mem_nil _)
  | cons e rest ih =>
    intro hnd c ct h
    obtain ⟨key, v⟩ := e
    have hnd2 : key ∉ keysOf rest ∧ (keysOf rest).Nodup := by
      have : keysOf ((key, v) :: rest) = key :: keysOf rest := rfl
      rw [this] at hnd
      exact List.nodup_cons.mp hnd
    rcases List.mem_cons.mp h with heq | hrest
    · injection heq with h1 h2
      subst h1
      subst h2
      rw [lookupCount, if_pos rfl]
    · have hck : c ∈ keysOf rest := by
        rw [keysOf, List.mem_map]
        exact ⟨(c, ct), hrest, rfl⟩
      have hne : key ≠ c := fun hkc => hnd2.1 (hkc ▸ hck)
      rw [lookupCount, if_neg hne]
      exact ih hnd2.2 c ct hrest

theorem mem_keysOf (t : List (ℤ × ℕ)) (c : ℤ) :
    c ∈ keysOf t ↔ ∃ ct, (c, ct) ∈ t := by
  rw [keysOf, List.mem_map]
  constructor
  · rintro ⟨⟨c2, ct⟩, hmem, rfl⟩
    exact ⟨ct, hmem⟩
  · rintro ⟨ct, hmem⟩
    exact ⟨(c, ct), hmem, rfl⟩

theorem runVoting_ok_char (points : List Point) (k : ℕ)
    (h : (voteLoop points k).1 ≠ []) :
    ∃ r, runVoting points k = .ok r.1 ∧ FirstMax (voteLoop points k).1 r := by
  obtain ⟨r, hbv, hfm⟩ := bestVote_spec _ h
  refine ⟨r, ?_, hfm⟩
  simp only [runVoting]
  rw [if_neg (by simpa using h), hbv]

theorem tally_nonempty (points : List Point) (k : ℕ)
    (h : successList points k ≠ []) : (voteLoop points k).1 ≠ [] := by
  rw [voteLoop_fst, buildTally]
  cases hsl : successList points k with
  | nil => exact absurd hsl h
  | cons a l =>
    rw [List.foldl_cons]
    exact foldl_bump_ne_nil l _ (bump_ne_nil [] a)

theorem tally_keys (points : List Point) (k : ℕ) :
    keysOf (voteLoop points k).1 = dedupeFirst [] (successList points k) := by
  rw [voteLoop_fst, buildTally]
  have h2 := foldl_bump_keys (successList points k) [] [] (by simp [keysOf])
  simpa [keysOf] using h2

theorem tally_lookup (points : List Point) (k : ℕ) (v : ℤ) :
    lookupCount (voteLoop points k).1 v = (successList points k).count v := by
  rw [voteLoop_fst, buildTally, foldl_bump_lookup]
  simp [lookupCount]

/-- Claim C6, amended: permuting the input point sequence leaves the
candidate-to-vote-count mapping unchanged, and whenever the winning value's
vote count is strictly greater than every other candidate's, the winning
value itself is also unchanged.  (With a tie at the maximal count the winner
can differ, see the counterexample.) -/
theorem voting_perm_counts_invariant (p p' : List Point) (k : ℕ)
    (hkn : k ≤ p.length) (hperm : p.Perm p') :
    (∀ c : ℤ, (successList p k).count c = (successList p' k).count c) ∧
    (∀ c : ℤ, runVoting p k = .ok c →
      (∀ v : ℤ, v ≠ c → (successList p k).count v < (successList p k).count c) →
      runVoting p' k = .ok c) := by
  refine ⟨fun c => successList_count_perm p p' k hkn hperm c, ?_⟩
  intro c hok huniq
  simp only [runVoting] at hok
  split at hok
  · exact absurd hok (by simp)
  · rename_i hnemp
    have hne : (voteLoop p k).1 ≠ [] := fun hh => hnemp (by rw [hh]; rfl)
    obtain ⟨r, hbv, hfm⟩ := bestVote_spec _ hne
    rw [hbv] at hok
    have hc : r.1 = c := by injection hok
    obtain ⟨hrmem, _⟩ := firstMax_le _ _ hfm
    have hckey : c ∈ keysOf (voteLoop p k).1 := by
      rw [mem_keysOf]
      exact ⟨r.2, by rw [← hc]; exact hrmem⟩
    have hcsucc : c ∈ successList p k := by
      rw [tally_keys] at hckey
      exact dedupeFirst_subset _ _ _ hckey
    have hcpos : 0 < (successList p k).count c := List.count_pos_iff.mpr hcsucc
    have hcpos' : 0 < (successList p' k).count c := by
      rw [← successList_count_perm p p' k hkn hperm c]
      exact hcpos
    have hsucc' : successList p' k ≠ [] := by
      intro hh
      rw [hh] at hcpos'
      simp at hcpos'
    obtain ⟨r2, hok2, hfm2⟩ := runVoting_ok_char p' k (tally_nonempty p' k hsucc')
    obtain ⟨hr2mem, hr2max⟩ := firstMax_le _ _ hfm2
    have hkeys2 : (keysOf (voteLoop p' k).1).Nodup := by
      rw [tally_keys]
      exact (dedupeFirst_nodup _ _).1
    have hr2lookup : lookupCount (voteLoop p' k).1 r2.1 = r2.2 :=
      lookup_of_mem_nodup _ hkeys2 r2.1 r2.2 (by
        have : r2 = (r2.1, r2.2) := rfl
        rw [← this]
        exact hr2mem)
    by_cases hc2 : r2.1 = c
    · rw [hc2] at hok2
      exact hok2
    · exfalso
      have hckey2 : c ∈ keysOf (voteLoop p' k).1 := by
        rw [tally_keys]
        have hcsucc' : c ∈ successList p' k := List.count_pos_iff.mp hcpos'
        exact dedupeFirst_mem_of_mem _ [] c hcsucc' (List.not_mem_nil c)
      obtain ⟨ctc, hctc⟩ := (mem_keysOf _ c).mp hckey2
      have hctc_lookup : lookupCount (voteLoop p' k).1 c = ctc :=
        lookup_of_mem_nodup _ hkeys2 c ctc hctc
      have h1 : ctc ≤ r2.2 := hr2max (c, ctc) hctc
      have h2 : r2.2 = (successList p' k).count r2.1 := by
        rw [← tally_lookup, hr2lookup]
      have h3 : ctc = (successList p' k).count c := by
        rw [← tally_lookup, hctc_lookup]
      have h4 : (successList p k).count r2.1 < (successList p k).count c :=
        huniq r2.1 hc2
      have h5 := successList_count_perm p p' k hkn hperm r2.1
      have h6 := successList_count_perm p p' k hkn hperm c
      omega

/-- Concrete instantiation of `voting_perm_counts_invariant` on the points
`(1,5), (2,7), (3,9)` (collinear) and their reversal with `k = 2`. -/
theorem voting_perm_counts_invariant_witness :
    (successList [⟨1, 5⟩, ⟨2, 7⟩, ⟨3, 9⟩] 2).count 3 =
      (successList [⟨3, 9⟩, ⟨2, 7⟩, ⟨1, 5⟩] 2).count 3 :=
  (voting_perm_counts_invariant [⟨1, 5⟩, ⟨2, 7⟩, ⟨3, 9⟩] [⟨3, 9⟩, ⟨2, 7⟩, ⟨1, 5⟩] 2
    (by norm_num) (by decide)).1 3

/-! ### Semantics of the Gaussian elimination (`solveFracSystem`) -/

/-- Rational value of an augmented-matrix entry. -/
def matQ (M : ℕ → ℕ → Frac) (r c : ℕ) : ℚ := (M r c).toRat

/-- `x` satisfies row `r` of the augmented `k × (k+1)` system `M`. -/
def SatRow (M : ℕ → ℕ → Frac) (k : ℕ) (x : ℕ → ℚ) (r : ℕ) : Prop :=
  ∑ c in Finset.range k, matQ M r c * x c = matQ M r k

/-- `x` satisfies every row of the augmented system. -/
def Sat (M : ℕ → ℕ → Frac) (k : ℕ) (x : ℕ → ℚ) : Prop :=
  ∀ r, r < k → SatRow M k x r

/-- The first `col` columns are zero strictly below the diagonal. -/
def ZeroBelow (M : ℕ → ℕ → Frac) (k col : ℕ) : Prop :=
  ∀ c r, c < col → c < r → r < k → matQ M r c = 0

/-- The first `col` diagonal entries are `1`. -/
def UnitDiag (M : ℕ → ℕ → Frac) (col : ℕ) : Prop :=
  ∀ r, r < col → matQ M r r = 1

/-- The pivot scan either returns the default `col` with the scanned stretch
of the column all zero, or an in-range row with nonzero numerator. -/
theorem findPivotFrom_spec (M : ℕ → ℕ → Frac) (col : ℕ) :
    ∀ (fuel r : ℕ),
      (findPivotFrom M col r fuel = col ∧
        ∀ s, r ≤ s → s < r + fuel → (M s col).n = 0) ∨
      (r ≤ findPivotFrom M col r fuel ∧ findPivotFrom M col r fuel < r + fuel ∧
        (M (findPivotFrom M col r fuel) col).n ≠ 0) := by
  intro fuel
  induction fuel with
  | zero =>
    intro r
    exact Or.inl ⟨rfl, fun s h1 h2 => absurd h2 (by omega)⟩
  | succ fuel ih =>
    intro r
    rw [findPivotFrom]
    by_cases h : (M r col).n ≠ 0
    · rw [if_pos h]
      exact Or.inr ⟨le_refl r, by omega, h⟩
    · rw [if_neg h]
      push_neg at h
      rcases ih (r + 1) with ⟨heq, hall⟩ | ⟨h1, h2, h3⟩
      · refine Or.inl ⟨heq, fun s hs1 hs2 => ?_⟩
        rcases Nat.eq_or_lt_of_le hs1 with hs | hs
        · rw [← hs]; exact h
        · exact hall s (by omega) (by omega)
      · exact Or.inr ⟨by omega, by omega, h3⟩

theorem findPivot_range (M : ℕ → ℕ → Frac) (k col : ℕ) (hcol : col < k)
    (h : (M (findPivot M k col) col).n ≠ 0) :
    col ≤ findPivot M k col ∧ findPivot M k col < k := by
  rw [findPivot] at h ⊢
  rcases findPivotFrom_spec M col (k - col) col with ⟨heq, _⟩ | ⟨h1, h2, _⟩
  · rw [heq]
    exact ⟨le_refl col, hcol⟩
  · exact ⟨h1, by omega⟩

theorem findPivot_zero (M : ℕ → ℕ → Frac) (k col : ℕ)
    (h : (M (findPivot M k col) col).n = 0) :
    ∀ s, col ≤ s → s < k → (M s col).n = 0 := by
  rw [findPivot] at h
  rcases findPivotFrom_spec M col (k - col) col with ⟨_, hall⟩ | ⟨_, _, h3⟩
  · exact fun s h1 h2 => hall s h1 (by omega)
  · exact absurd h h3

theorem swapRows_fst (M : ℕ → ℕ → Frac) (r1 r2 c : ℕ) :
    swapRows M r1 r2 r1 c = M r2 c := by
  simp only [swapRows]
  rw [if_true]

theorem swapRows_snd (M : ℕ → ℕ → Frac) (r1 r2 c : ℕ) :
    swapRows M r1 r2 r2 c = M r1 c := by
  simp only [swapRows]
  by_cases h : r2 = r1
  · rw [if_pos h, h]
  · rw [if_neg h, if_true]

theorem swapRows_other (M : ℕ → ℕ → Frac) (r1 r2 r c : ℕ) (h1 : r ≠ r1) (h2 : r ≠ r2) :
    swapRows M r1 r2 r c = M r c := by
  simp only [swapRows]
  rw [if_neg h1, if_neg h2]

/-- The matrix produced by a successful `elimCol` step. -/
def elimResult (k : ℕ) (M : ℕ → ℕ → Frac) (col piv : ℕ) (h : (M piv col).n ≠ 0) :
    ℕ → ℕ → Frac :=
  elimBelow k (elimNormalize k (swapRows M col piv) col (M piv col) h) col

theorem elimCol_ok (k : ℕ) (M : ℕ → ℕ → Frac) (col : ℕ)
    (h : (M (findPivot M k col) col).n ≠ 0) :
    elimCol k M col = .ok (elimResult k M col (findPivot M k col) h) := by
  rw [elimCol, dif_neg h, elimResult]

theorem elimCol_err (k : ℕ) (M : ℕ → ℕ → Frac) (col : ℕ)
    (h : (M (findPivot M k col) col).n = 0) :
    elimCol k M col = .error .singularMatrix := by
  rw [elimCol, dif_pos h]

theorem elimNormalize_other (k : ℕ) (M1 : ℕ → ℕ → Frac) (col : ℕ) (p : Frac)
    (h : p.n ≠ 0) (r c : ℕ) (hr : r ≠ col) :
    elimNormalize k M1 col p h r c = M1 r c := by
  simp only [elimNormalize]
  rw [if_neg (show ¬(r = col ∧ col ≤ c ∧ c ≤ k) from fun hc => hr hc.1)]

theorem elimNormalize_left (k : ℕ) (M1 : ℕ → ℕ → Frac) (col : ℕ) (p : Frac)
    (h : p.n ≠ 0) (r c : ℕ) (hc : c < col) :
    elimNormalize k M1 col p h r c = M1 r c := by
  simp only [elimNormalize]
  rw [if_neg (show ¬(r = col ∧ col ≤ c ∧ c ≤ k) from
    fun hcnd => absurd hcnd.2.1 (by omega))]

theorem elimNormalize_in (k : ℕ) (M1 : ℕ → ℕ → Frac) (col : ℕ) (p : Frac)
    (h : p.n ≠ 0) (c : ℕ) (hc1 : col ≤ c) (hc2 : c ≤ k) :
    elimNormalize k M1 col p h col c = (M1 col c).divP p h := by
  simp only [elimNormalize]
  rw [if_pos ⟨trivial, hc1, hc2⟩]

theorem elimBelow_not_lt (k : ℕ) (M2 : ℕ → ℕ → Frac) (col r c : ℕ) (hr : ¬ col < r) :
    elimBelow k M2 col r c = M2 r c := by
  simp only [elimBelow]
  rw [if_neg (show ¬(col < r ∧ r < k ∧ (M2 r col).n ≠ 0 ∧ col ≤ c ∧ c ≤ k) from
    fun hc => hr hc.1)]

theorem elimBelow_left (k : ℕ) (M2 : ℕ → ℕ → Frac) (col r c : ℕ) (hc : c < col) :
    elimBelow k M2 col r c = M2 r c := by
  simp only [elimBelow]
  rw [if_neg (show ¬(col < r ∧ r < k ∧ (M2 r col).n ≠ 0 ∧ col ≤ c ∧ c ≤ k) from
    fun hcnd => absurd hcnd.2.2.2.1 (by omega))]

/-- Semantic effect of the elimination below the pivot row: on every relevant
entry the row operation subtracts `factor` times the pivot row, also when the
source skips the update because the factor is already zero. -/
theorem elimBelow_matQ (k : ℕ) (M2 : ℕ → ℕ → Frac) (col r c : ℕ)
    (h1 : col < r) (h2 : r < k) (hc2 : c ≤ k)
    (hzrow : ∀ c2, c2 < col → matQ M2 col c2 = 0) :
    matQ (elimBelow k M2 col) r c = matQ M2 r c - matQ M2 r col * matQ M2 col c := by
  by_cases hf : (M2 r col).n = 0
  · have he : elimBelow k M2 col r c = M2 r c := by
      simp only [elimBelow]
      rw [if_neg (show ¬(col < r ∧ r < k ∧ (M2 r col).n ≠ 0 ∧ col ≤ c ∧ c ≤ k) from
        fun hcnd => absurd hf hcnd.2.2.1)]
    have hz2 : (M2 r col).toRat = 0 := (Frac.toRat_eq_zero_iff _).mpr hf
    simp only [matQ]
    rw [he, hz2, zero_mul, sub_zero]
  · by_cases hc1 : col ≤ c
    · have he : elimBelow k M2 col r c = (M2 r c).sub ((M2 r col).mul (M2 col c)) := by
        simp only [elimBelow]
        rw [if_pos ⟨h1, h2, hf, hc1, hc2⟩]
      simp only [matQ]
      rw [he, Frac.toRat_sub, Frac.toRat_mul]
    · have he : elimBelow k M2 col r c = M2 r c := by
        simp only [elimBelow]
        rw [if_neg (show ¬(col < r ∧ r < k ∧ (M2 r col).n ≠ 0 ∧ col ≤ c ∧ c ≤ k) from
          fun hcnd => absurd hcnd.2.2.2.1 hc1)]
      simp only [matQ]
      rw [he, show (M2 col c).toRat = 0 from hzrow c (by omega), mul_zero, sub_zero]

theorem elimResult_above (k : ℕ) (M : ℕ → ℕ → Frac) (col piv : ℕ)
    (h : (M piv col).n ≠ 0) (hpl : col ≤ piv) (r c : ℕ) (hr : r < col) :
    elimResult k M col piv h r c = M r c := by
  rw [elimResult, elimBelow_not_lt k _ col r c (by omega),
    elimNormalize_other k _ col _ h r c (by omega),
    swapRows_other M col piv r c (by omega) (by omega)]

theorem elimResult_pivrow_left (k : ℕ) (M : ℕ → ℕ → Frac) (col piv : ℕ)
    (h : (M piv col).n ≠ 0) (c : ℕ) (hc : c < col) :
    elimResult k M col piv h col c = M piv c := by
  rw [elimResult, elimBelow_not_lt k _ col col c (lt_irrefl col),
    elimNormalize_left k _ col _ h col c hc, swapRows_fst]

theorem elimResult_pivrow (k : ℕ) (M : ℕ → ℕ → Frac) (col piv : ℕ)
    (h : (M piv col).n ≠ 0) (c : ℕ) (hc1 : col ≤ c) (hc2 : c ≤ k) :
    elimResult k M col piv h col c = (M piv c).divP (M piv col) h := by
  rw [elimResult, elimBelow_not_lt k _ col col c (lt_irrefl col),
    elimNormalize_in k _ col _ h c hc1 hc2, swapRows_fst]

theorem satRow_congr (Ma Mb : ℕ → ℕ → Frac) (k : ℕ) (x : ℕ → ℚ) (r : ℕ)
    (hr : ∀ c, c ≤ k → matQ Ma r c = matQ Mb r c) :
    SatRow Ma k x r ↔ SatRow Mb k x r := by
  unfold SatRow
  rw [hr k (le_refl k)]
  rw [show ∑ c in Finset.range k, matQ Ma r c * x c
      = ∑ c in Finset.range k, matQ Mb r c * x c from
    Finset.sum_congr rfl (fun c hc => by
      rw [hr c (le_of_lt (Finset.mem_range.mp hc))])]

/-- Row swapping preserves the solution set. -/
theorem sat_swap (M : ℕ → ℕ → Frac) (k col piv : ℕ) (hcol : col < k) (hpk : piv < k)
    (x : ℕ → ℚ) :
    Sat M k x ↔ Sat (swapRows M col piv) k x := by
  have hval : ∀ r c, swapRows M col piv r c =
      M (if r = col then piv else if r = piv then col else r) c := by
    intro r c
    simp only [swapRows]
    by_cases h1 : r = col
    · rw [if_pos h1, if_pos h1]
    · rw [if_neg h1, if_neg h1]
      by_cases h2 : r = piv
      · rw [if_pos h2, if_pos h2]
      · rw [if_neg h2, if_neg h2]
  have h2 : ∀ r c, matQ (swapRows M col piv) r c =
      matQ M (if r = col then piv else if r = piv then col else r) c :=
    fun r c => congrArg Frac.toRat (hval r c)
  have hrow : ∀ r, SatRow (swapRows M col piv) k x r ↔
      SatRow M k x (if r = col then piv else if r = piv then col else r) := by
    intro r
    unfold SatRow
    rw [h2 r k]
    rw [show ∑ c in Finset.range k, matQ (swapRows M col piv) r c * x c
        = ∑ c in Finset.range k,
            matQ M (if r = col then piv else if r = piv then col else r) c * x c from
      Finset.sum_congr rfl (fun c _ => by rw [h2 r c])]
  have hσ : ∀ r, r < k → (if r = col then piv else if r = piv then col else r) < k := by
    intro r hr
    split
    · exact hpk
    · split
      · exact hcol
      · exact hr
  have hinv : ∀ r, (if (if r = col then piv else if r = piv then col else r) = col then piv
      else if (if r = col then piv else if r = piv then col else r) = piv then col
      else (if r = col then piv else if r = piv then col else r)) = r := by
    intro r
    split_ifs <;> omega
  constructor
  · intro hs r hr
    rw [hrow r]
    exact hs _ (hσ r hr)
  · intro hs r hr
    have hh := (hrow (if r = col then piv else if r = piv then col else r)).mp
      (hs _ (hσ r hr))
    rwa [hinv r] at hh

/-- Normalizing the pivot row by the (nonzero) pivot value preserves the
solution set; entries left of the pivot column are zero so the partial-row
division is harmless. -/
theorem sat_normalize (k : ℕ) (M1 : ℕ → ℕ → Frac) (col : ℕ) (p : Frac) (hp : p.n ≠ 0)
    (hcol : col < k) (hzrow : ∀ c, c < col → matQ M1 col c = 0) (x : ℕ → ℚ) :
    Sat M1 k x ↔ Sat (elimNormalize k M1 col p hp) k x := by
  have hp0 : p.toRat ≠ 0 := fun hq => hp ((Frac.toRat_eq_zero_iff p).mp hq)
  have hpc : ∀ c, c ≤ k →
      matQ (elimNormalize k M1 col p hp) col c = matQ M1 col c / p.toRat := by
    intro c hc
    by_cases h1 : col ≤ c
    · rw [show matQ (elimNormalize k M1 col p hp) col c = ((M1 col c).divP p hp).toRat from
        congrArg Frac.toRat (elimNormalize_in k M1 col p hp c h1 hc)]
      exact Frac.toRat_divP _ _ hp
    · rw [show matQ (elimNormalize k M1 col p hp) col c = matQ M1 col c from
        congrArg Frac.toRat (elimNormalize_left k M1 col p hp col c (by omega))]
      rw [hzrow c (by omega), zero_div]
  have hother : ∀ r c, r ≠ col →
      matQ (elimNormalize k M1 col p hp) r c = matQ M1 r c :=
    fun r c hr => congrArg Frac.toRat (elimNormalize_other k M1 col p hp r c hr)
  have hrowcol : SatRow M1 k x col ↔ SatRow (elimNormalize k M1 col p hp) k x col := by
    unfold SatRow
    rw [hpc k (le_refl k)]
    rw [show ∑ c in Finset.range k, matQ (elimNormalize k M1 col p hp) col c * x c
        = ∑ c in Finset.range k, matQ M1 col c / p.toRat * x c from
      Finset.sum_congr rfl (fun c hc => by
        rw [hpc c (le_of_lt (Finset.mem_range.mp hc))])]
    rw [show ∑ c in Finset.range k, matQ M1 col c / p.toRat * x c
        = (∑ c in Finset.range k, matQ M1 col c * x c) / p.toRat from by
      rw [Finset.sum_div]
      exact Finset.sum_congr rfl (fun c _ => by ring)]
    exact (div_left_inj' hp0).symm
  constructor
  · intro hs r hr
    by_cases h1 : r = col
    · rw [h1]
      exact hrowcol.mp (hs col hcol)
    · exact (satRow_congr M1 _ k x r (fun c hc => (hother r c h1).symm)).mp (hs r hr)
  · intro hs r hr
    by_cases h1 : r = col
    · rw [h1]
      exact hrowcol.mpr (hs col hcol)
    · exact (satRow_congr _ M1 k x r (fun c hc => hother r c h1)).mp (hs r hr)

/-- Subtracting multiples of the pivot row from the rows below preserves the
solution set. -/
theorem sat_elimBelow (k : ℕ) (M2 : ℕ → ℕ → Frac) (col : ℕ) (hcol : col < k)
    (hzrow : ∀ c, c < col → matQ M2 col c = 0) (x : ℕ → ℚ) :
    Sat M2 k x ↔ Sat (elimBelow k M2 col) k x := by
  have hle : ∀ r c, ¬ col < r → matQ (elimBelow k M2 col) r c = matQ M2 r c :=
    fun r c hr => congrArg Frac.toRat (elimBelow_not_lt k M2 col r c hr)
  have hbel : ∀ r c, col < r → r < k → c ≤ k →
      matQ (elimBelow k M2 col) r c = matQ M2 r c - matQ M2 r col * matQ M2 col c :=
    fun r c h1 h2 hc => elimBelow_matQ k M2 col r c h1 h2 hc hzrow
  have hsum : ∀ r, col < r → r < k →
      (∑ c in Finset.range k, matQ (elimBelow k M2 col) r c * x c)
        = (∑ c in Finset.range k, matQ M2 r c * x c)
          - matQ M2 r col * ∑ c in Finset.range k, matQ M2 col c * x c := by
    intro r h1 h2
    rw [Finset.mul_sum, ← Finset.sum_sub_distrib]
    refine Finset.sum_congr rfl fun c hc => ?_
    rw [hbel r c h1 h2 (le_of_lt (Finset.mem_range.mp hc))]
    ring
  constructor
  · intro hs r hr
    by_cases h1 : col < r
    · unfold SatRow
      rw [hbel r k h1 hr (le_refl k), hsum r h1 hr]
      have hcr := hs col hcol
      have hrr := hs r hr
      unfold SatRow at hcr hrr
      rw [hcr, hrr]
    · exact (satRow_congr M2 _ k x r (fun c hc => (hle r c h1).symm)).mp (hs r hr)
  · intro hs r hr
    by_cases h1 : col < r
    · have hcr : SatRow M2 k x col :=
        (satRow_congr _ M2 k x col (fun c hc => hle col c (lt_irrefl col))).mp (hs col hcol)
      have hrr := hs r hr
      unfold SatRow at hcr hrr ⊢
      rw [hbel r k h1 hr (le_refl k), hsum r h1 hr, hcr] at hrr
      linarith [hrr]
    · exact (satRow_congr _ M2 k x r (fun c hc => hle r c h1)).mp (hs r hr)

/-- A successful elimination step extends the zero-below-diagonal invariant
to the processed column. -/
theorem elimResult_zeroBelow (k : ℕ) (M : ℕ → ℕ → Frac) (col piv : ℕ)
    (h : (M piv col).n ≠ 0) (hcol : col < k) (hpl : col ≤ piv) (hpk : piv < k)
    (hz : ZeroBelow M k col) :
    ZeroBelow (elimResult k M col piv h) k (col + 1) := by
  have hz1 : ZeroBelow (swapRows M col piv) k col := by
    intro c r hc hcr hrk
    by_cases h1 : r = col
    · rw [h1]
      rw [show matQ (swapRows M col piv) col c = matQ M piv c from
        congrArg Frac.toRat (swapRows_fst M col piv c)]
      exact hz c piv hc (by omega) hpk
    · by_cases h2 : r = piv
      · rw [h2]
        rw [show matQ (swapRows M col piv) piv c = matQ M col c from
          congrArg Frac.toRat (swapRows_snd M col piv c)]
        exact hz c col hc hc hcol
      · rw [show matQ (swapRows M col piv) r c = matQ M r c from
          congrArg Frac.toRat (swapRows_other M col piv r c h1 h2)]
        exact hz c r hc hcr hrk
  intro c r hc hcr hrk
  rcases Nat.lt_or_ge c col with hcc | hcc
  · rcases Nat.lt_trichotomy r col with h1 | h1 | h1
    · rw [show matQ (elimResult k M col piv h) r c = matQ M r c from
        congrArg Frac.toRat (elimResult_above k M col piv h hpl r c h1)]
      exact hz c r hcc hcr hrk
    · rw [h1]
      rw [show matQ (elimResult k M col piv h) col c = matQ M piv c from
        congrArg Frac.toRat (elimResult_pivrow_left k M col piv h c hcc)]
      exact hz c piv hcc (by omega) hpk
    · rw [show matQ (elimResult k M col piv h) r c = matQ (swapRows M col piv) r c from
        congrArg Frac.toRat (by
          rw [elimResult, elimBelow_left k _ col r c hcc,
            elimNormalize_other k _ col _ h r c (by omega)])]
      exact hz1 c r hcc hcr hrk
  · have hceq : c = col := by omega
    rw [hceq]
    have hzrow2 : ∀ c2, c2 < col →
        matQ (elimNormalize k (swapRows M col piv) col (M piv col) h) col c2 = 0 := by
      intro c2 hc2
      rw [show matQ (elimNormalize k (swapRows M col piv) col (M piv col) h) col c2
          = matQ (swapRows M col piv) col c2 from
        congrArg Frac.toRat (elimNormalize_left k _ col _ h col c2 hc2)]
      rw [show matQ (swapRows M col piv) col c2 = matQ M piv c2 from
        congrArg Frac.toRat (swapRows_fst M col piv c2)]
      exact hz c2 piv hc2 (by omega) hpk
    rw [elimResult]
    rw [elimBelow_matQ k _ col r col (by omega) hrk (by omega) hzrow2]
    have hdiag : matQ (elimNormalize k (swapRows M col piv) col (M piv col) h) col col = 1 := by
      rw [show matQ (elimNormalize k (swapRows M col piv) col (M piv col) h) col col
          = ((swapRows M col piv col col).divP (M piv col) h).toRat from
        congrArg Frac.toRat (elimNormalize_in k _ col _ h col (le_refl col) (by omega))]
      rw [Frac.toRat_divP _ _ h]
      rw [show swapRows M col piv col col = M piv col from swapRows_fst M col piv col]
      exact div_self (fun hq => h ((Frac.toRat_eq_zero_iff _).mp hq))
    rw [hdiag, mul_one, sub_self]

/-- A successful elimination step extends the unit-diagonal invariant to the
processed column. -/
theorem elimResult_unitDiag (k : ℕ) (M : ℕ → ℕ → Frac) (col piv : ℕ)
    (h : (M piv col).n ≠ 0) (hcol : col < k) (hpl : col ≤ piv) (hpk : piv < k)
    (hu : UnitDiag M col) :
    UnitDiag (elimResult k M col piv h) (col + 1) := by
  intro r hr
  rcases Nat.lt_or_ge r col with h1 | h1
  · rw [show matQ (elimResult k M col piv h) r r = matQ M r r from
      congrArg Frac.toRat (elimResult_above k M col piv h hpl r r h1)]
    exact hu r h1
  · have hreq : r = col := by omega
    rw [hreq]
    rw [show matQ (elimResult k M col piv h) col col
        = ((M piv col).divP (M piv col) h).toRat from
      congrArg Frac.toRat (elimResult_pivrow k M col piv h col (le_refl col) (by omega))]
    rw [Frac.toRat_divP _ _ h]
    exact div_self (fun hq => h ((Frac.toRat_eq_zero_iff _).mp hq))

/-- A successful elimination step preserves the solution set. -/
theorem elimResult_sat (k : ℕ) (M : ℕ → ℕ → Frac) (col piv : ℕ)
    (h : (M piv col).n ≠ 0) (hcol : col < k) (hpl : col ≤ piv) (hpk : piv < k)
    (hz : ZeroBelow M k col) (x : ℕ → ℚ) :
    Sat M k x ↔ Sat (elimResult k M col piv h) k x := by
  have hzrow1 : ∀ c, c < col → matQ (swapRows M col piv) col c = 0 := by
    intro c hc
    rw [show matQ (swapRows M col piv) col c = matQ M piv c from
      congrArg Frac.toRat (swapRows_fst M col piv c)]
    exact hz c piv hc (by omega) hpk
  have hzrow2 : ∀ c, c < col →
      matQ (elimNormalize k (swapRows M col piv) col (M piv col) h) col c = 0 := by
    intro c hc
    rw [show matQ (elimNormalize k (swapRows M col piv) col (M piv col) h) col c
        = matQ (swapRows M col piv) col c from
      congrArg Frac.toRat (elimNormalize_left k _ col _ h col c hc)]
    exact hzrow1 c hc
  rw [elimResult]
  exact (sat_swap M k col piv hcol hpk x).trans
    ((sat_normalize k (swapRows M col piv) col (M piv col) h hcol hzrow1 x).trans
      (sat_elimBelow k _ col hcol hzrow2 x))

theorem sum_range_split (k r : ℕ) (hr : r < k) (f : ℕ → ℚ)
    (hz : ∀ c, c < r → f c = 0) :
    ∑ c in Finset.range k, f c = f r + ∑ c in Finset.Ico (r + 1) k, f c := by
  rw [Finset.range_eq_Ico]
  rw [← Finset.sum_Ico_consecutive f (Nat.zero_le r) (le_of_lt hr)]
  rw [Finset.sum_eq_zero (fun c hc => hz c (Finset.mem_Ico.mp hc).2), zero_add]
  exact Finset.sum_eq_sum_Ico_succ_bot hr f

/-- Witness vector exhibited when a pivot column is all zero: `1` at `col`,
back-substituted above `col`, `0` beyond; after `s` steps rows
`col-s .. col` are filled. -/
def kernelVec (q : ℕ → ℕ → ℚ) (col : ℕ) : ℕ → ℕ → ℚ
  | 0, i => if i = col then 1 else 0
  | s + 1, i =>
    if i = col - (s + 1) then
      -(∑ c in Finset.Ico (col - s) (col + 1), q (col - (s + 1)) c * kernelVec q col s c)
    else kernelVec q col s i

theorem kernelVec_stable (q : ℕ → ℕ → ℚ) (col : ℕ) :
    ∀ s2 s, s ≤ s2 → s2 ≤ col → ∀ i, col - s ≤ i →
      kernelVec q col s2 i = kernelVec q col s i := by
  intro s2
  induction s2 with
  | zero =>
    intro s hs _ i _
    have hs0 : s = 0 := by omega
    rw [hs0]
  | succ s2 ih =>
    intro s hs h2 i hi
    rcases Nat.eq_or_lt_of_le hs with he | hlt
    · rw [he]
    · rw [kernelVec, if_neg (show i ≠ col - (s2 + 1) by omega)]
      exact ih s (by omega) (by omega) i hi

theorem kernelVec_self (q : ℕ → ℕ → ℚ) (col s : ℕ) (hs : s ≤ col) :
    kernelVec q col s col = 1 := by
  rw [kernelVec_stable q col s 0 (Nat.zero_le s) hs col (by omega)]
  rw [kernelVec, if_pos rfl]

theorem kernelVec_above (q : ℕ → ℕ → ℚ) (col : ℕ) :
    ∀ s i, col < i → kernelVec q col s i = 0 := by
  intro s
  induction s with
  | zero =>
    intro i hi
    rw [kernelVec, if_neg (show i ≠ col by omega)]
  | succ s ih =>
    intro i hi
    rw [kernelVec, if_neg (show i ≠ col - (s + 1) by omega)]
    exact ih i hi

theorem kernelVec_value (q : ℕ → ℕ → ℚ) (col r : ℕ) (hr : r < col) :
    kernelVec q col col r =
      -(∑ c in Finset.Ico (r + 1) (col + 1), q r c * kernelVec q col col c) := by
  rw [kernelVec_stable q col col (col - r) (by omega) (le_refl col) r (by omega)]
  rw [show col - r = col - r - 1 + 1 by omega]
  rw [kernelVec, if_pos (show r = col - (col - r - 1 + 1) by omega)]
  rw [show col - (col - r - 1 + 1) = r by omega, show col - (col - r - 1) = r + 1 by omega]
  congr 1
  refine Finset.sum_congr rfl fun c hc => ?_
  have hc2 := Finset.mem_Ico.mp hc
  rw [kernelVec_stable q col col (col - r - 1) (by omega) (le_refl col) c (by omega)]

/-- If the pivot column is all zero from the diagonal down, the witness
vector is in the kernel of the coefficient matrix. -/
theorem kernelVec_kernel (M : ℕ → ℕ → Frac) (k col : ℕ) (hcol : col < k)
    (hz : ZeroBelow M k col) (hu : UnitDiag M col)
    (hcz : ∀ s, col ≤ s → s < k → matQ M s col = 0) :
    ∀ r, r < k → ∑ c in Finset.range k, matQ M r c * kernelVec (matQ M) col col c = 0 := by
  intro r hr
  by_cases hrc : r < col
  · rw [sum_range_split k r hr _ (fun c hc => by
      rw [hz c r (by omega) hc hr, zero_mul])]
    rw [hu r hrc, one_mul]
    have hsub : Finset.Ico (r + 1) (col + 1) ⊆ Finset.Ico (r + 1) k := by
      intro a ha
      rw [Finset.mem_Ico] at ha ⊢
      omega
    have h1 : ∑ c in Finset.Ico (r + 1) k, matQ M r c * kernelVec (matQ M) col col c
        = ∑ c in Finset.Ico (r + 1) (col + 1),
            matQ M r c * kernelVec (matQ M) col col c := by
      refine (Finset.sum_subset hsub ?_).symm
      intro c hc hnc
      rw [Finset.mem_Ico] at hc hnc
      rw [kernelVec_above (matQ M) col col c (by omega), mul_zero]
    rw [h1, kernelVec_value (matQ M) col r hrc]
    ring
  · refine Finset.sum_eq_zero fun c hc => ?_
    rw [Finset.mem_range] at hc
    rcases Nat.lt_trichotomy c col with h1 | h1 | h1
    · rw [hz c r h1 (by omega) hr, zero_mul]
    · rw [h1, hcz r (by omega) hr, zero_mul]
    · rw [kernelVec_above (matQ M) col col c h1, mul_zero]

/-- Forward elimination: when the system has a solution and solutions are
unique, every column finds a nonzero pivot and the invariants accumulate. -/
theorem forward_ok (k : ℕ) (M0 : ℕ → ℕ → Frac) (xsol : ℕ → ℚ)
    (hsol : Sat M0 k xsol)
    (huniq : ∀ x x2, Sat M0 k x → Sat M0 k x2 → ∀ c, c < k → x c = x2 c) :
    ∀ j, j ≤ k → ∃ M,
      (List.range j).foldlM (fun M col => elimCol k M col) M0 = .ok M ∧
      ZeroBelow M k j ∧ UnitDiag M j ∧ (∀ x, Sat M0 k x ↔ Sat M k x) := by
  intro j
  induction j with
  | zero =>
    intro _
    exact ⟨M0, rfl, fun c r hc _ _ => absurd hc (Nat.not_lt_zero c),
      fun r hrr => absurd hrr (Nat.not_lt_zero r), fun x => Iff.rfl⟩
  | succ j ih =>
    intro hj
    obtain ⟨M, hfold, hzb, hud, hiff⟩ := ih (by omega)
    have hstep : (List.range (j + 1)).foldlM (fun M col => elimCol k M col) M0
        = elimCol k M j := by
      rw [List.range_succ, List.foldlM_append, hfold]
      show (elimCol k M j >>= fun b => pure b) = elimCol k M j
      exact bind_pure (elimCol k M j)
    by_cases hp : (M (findPivot M k j) j).n = 0
    · exfalso
      have hall := findPivot_zero M k j hp
      have hK := kernelVec_kernel M k j (by omega) hzb hud
        (fun s h1 h2 => (Frac.toRat_eq_zero_iff _).mpr (hall s h1 h2))
      have hx1 : Sat M k xsol := (hiff xsol).mp hsol
      have hx2 : Sat M k (fun i => xsol i + kernelVec (matQ M) j j i) := by
        intro r hr
        show ∑ c in Finset.range k, matQ M r c * (xsol c + kernelVec (matQ M) j j c)
            = matQ M r k
        have h1 : ∑ c in Finset.range k, matQ M r c * (xsol c + kernelVec (matQ M) j j c)
            = (∑ c in Finset.range k, matQ M r c * xsol c)
              + ∑ c in Finset.range k, matQ M r c * kernelVec (matQ M) j j c := by
          rw [← Finset.sum_add_distrib]
          exact Finset.sum_congr rfl fun c _ => by ring
        rw [h1, hK r hr, add_zero]
        exact hx1 r hr
      have hx2' : Sat M0 k (fun i => xsol i + kernelVec (matQ M) j j i) :=
        (hiff _).mpr hx2
      have heq : xsol j = xsol j + kernelVec (matQ M) j j j :=
        huniq xsol _ hsol hx2' j (by omega)
      rw [kernelVec_self (matQ M) j j (le_refl j)] at heq
      linarith [heq]
    · obtain ⟨hpl, hpk⟩ := findPivot_range M k j (by omega) hp
      refine ⟨elimResult k M j (findPivot M k j) hp, ?_, ?_, ?_, ?_⟩
      · rw [hstep]
        exact elimCol_ok k M j hp
      · exact elimResult_zeroBelow k M j _ hp (by omega) hpl hpk hzb
      · exact elimResult_unitDiag k M j _ hp (by omega) hpl hpk hud
      · exact fun x => (hiff x).trans
          (elimResult_sat k M j _ hp (by omega) hpl hpk hzb x)

theorem backSubst_stable (M : ℕ → ℕ → Frac) (k : ℕ) :
    ∀ s2 s, s ≤ s2 → s2 ≤ k → ∀ i, k - s ≤ i →
      backSubst M k s2 i = backSubst M k s i := by
  intro s2
  induction s2 with
  | zero =>
    intro s hs _ i _
    have hs0 : s = 0 := by omega
    rw [hs0]
  | succ s2 ih =>
    intro s hs h2 i hi
    rcases Nat.eq_or_lt_of_le hs with he | hlt
    · rw [he]
    · have hne : i ≠ k - (s2 + 1) := by omega
      simp only [backSubst]
      rw [if_neg hne]
      exact ih s (by omega) (by omega) i hi

theorem backSubst_value (M : ℕ → ℕ → Frac) (k r : ℕ) (hr : r < k) :
    backSubst M k k r = (M r k).sub (sumRow M k (backSubst M k (k - r - 1)) r) := by
  rw [backSubst_stable M k k (k - r) (by omega) (le_refl k) r (by omega)]
  rw [show k - r = k - r - 1 + 1 by omega]
  simp only [backSubst]
  rw [if_pos (show r = k - (k - r - 1 + 1) by omega)]
  rw [show k - (k - r - 1 + 1) = r by omega]
  rw [show k - r - 1 + 1 - 1 = k - r - 1 from by omega]

theorem toRat_foldl_add (M : ℕ → ℕ → Frac) (r : ℕ) (x : ℕ → Frac) :
    ∀ (L : List ℕ) (acc : Frac),
      (L.foldl (fun s c => s.add ((M r c).mul (x c))) acc).toRat =
        acc.toRat + (L.map (fun c => matQ M r c * (x c).toRat)).sum := by
  intro L
  induction L with
  | nil =>
    intro acc
    rw [List.foldl_nil, List.map_nil, List.sum_nil, add_zero]
  | cons b L ih =>
    intro acc
    rw [List.foldl_cons, ih, Frac.toRat_add, Frac.toRat_mul, List.map_cons, List.sum_cons]
    simp only [matQ]
    ring

theorem toRat_sumRow (M : ℕ → ℕ → Frac) (k : ℕ) (x : ℕ → Frac) (r : ℕ) :
    (sumRow M k x r).toRat = ∑ c in Finset.Ico (r + 1) k, matQ M r c * (x c).toRat := by
  rw [sumRow, toRat_foldl_add, Frac.toRat_fromBI, Int.cast_zero, zero_add]
  rw [Nat.Ico_eq_range']
  rfl

/-- The vector read off by back substitution solves the unit-upper-triangular
system left by the forward elimination. -/
theorem backSubst_sat (M : ℕ → ℕ → Frac) (k : ℕ) (hzb : ZeroBelow M k k)
    (hud : UnitDiag M k) :
    Sat M k (fun i => (backSubst M k k i).toRat) := by
  intro r hr
  show ∑ c in Finset.range k, matQ M r c * (backSubst M k k c).toRat = matQ M r k
  rw [sum_range_split k r hr _ (fun c hc => by
    rw [hzb c r (by omega) hc hr, zero_mul])]
  rw [hud r hr, one_mul]
  have hval : (backSubst M k k r).toRat
      = matQ M r k - ∑ c in Finset.Ico (r + 1) k,
          matQ M r c * (backSubst M k k c).toRat := by
    rw [backSubst_value M k r hr, Frac.toRat_sub, toRat_sumRow]
    congr 1
    refine Finset.sum_congr rfl fun c hc => ?_
    have hc2 := Finset.mem_Ico.mp hc
    rw [backSubst_stable M k k (k - r - 1) (by omega) (le_refl k) c (by omega)]
  rw [hval]
  ring

theorem getD_map_range {α : Type} (n : ℕ) (f : ℕ → α) (r : ℕ) (hr : r < n) (d : α) :
    ((List.range n).map f).getD r d = f r := by
  rw [List.getD_eq_getElem _ _ (by
    rw [List.length_map, List.length_range]
    exact hr)]
  rw [List.getElem_map, List.getElem_range]

theorem vandermondeRow_getD (x : ℤ) (m c : ℕ) (hc : c ≤ m) :
    (vandermondeRow x m).getD c (Frac.fromBI 0) = Frac.fromBI (x ^ (m - c)) := by
  rw [vandermondeRow]
  rcases Nat.lt_or_ge c m with h | h
  · rw [List.getD_append _ _ _ _ (by
      rw [List.length_map, List.length_range]
      exact h)]
    rw [getD_map_range m _ c h, powBI_eq]
  · have hcm : c = m := by omega
    rw [hcm]
    rw [List.getD_append_right _ _ _ _
      (le_of_eq (by rw [List.length_map, List.length_range]))]
    rw [List.length_map, List.length_range, Nat.sub_self, pow_zero]
    rfl

/-- The augmented matrix built by `solveFracSystem` from the Vandermonde rows
and right-hand side that `solveForIndices` assembles for indices `0 .. k-1`. -/
def vanM0 (pts : List Point) : ℕ → ℕ → Frac := fun r c =>
  if c < pts.length then
    (((List.range pts.length).map (fun ii =>
        vandermondeRow ((pts.map Point.x).getD ii 0) (pts.length - 1))).getD r []).getD c
      (Frac.fromBI 0)
  else ((List.range pts.length).map (fun ii =>
      Frac.fromBI ((pts.map Point.y).getD ii 0))).getD r (Frac.fromBI 0)

theorem solveFracSystem_spec (A : List (List Frac)) (b : List Frac) :
    solveFracSystem A b =
      ((List.range A.length).foldlM (fun M col => elimCol A.length M col)
        (fun r c => if c < A.length then (A.getD r []).getD c (Frac.fromBI 0)
          else b.getD r (Frac.fromBI 0))) >>=
        (fun M => pure ((List.range A.length).map (backSubst M A.length A.length))) := rfl

theorem solveForIndices_range (pts : List Point) :
    solveForIndices pts (pts.length - 1) (List.range pts.length) =
      ((List.range pts.length).foldlM (fun M col => elimCol pts.length M col)
        (vanM0 pts)) >>=
        (fun M => pure ((List.range pts.length).map
          (backSubst M pts.length pts.length))) := by
  simp only [solveForIndices]
  rw [solveFracSystem_spec]
  have hlen : ((List.range pts.length).map (fun ii =>
      vandermondeRow ((pts.map Point.x).getD ii 0) (pts.length - 1))).length
        = pts.length := by
    rw [List.length_map, List.length_range]
  rw [hlen]
  rfl

theorem vanM0_coeff (pts : List Point) (r c : ℕ) (hr : r < pts.length)
    (hc : c < pts.length) :
    vanM0 pts r c = Frac.fromBI (((pts.map Point.x).getD r 0) ^ (pts.length - 1 - c)) := by
  simp only [vanM0]
  rw [if_pos hc, getD_map_range _ _ r hr, vandermondeRow_getD _ _ _ (by omega)]

theorem vanM0_rhs (pts : List Point) (r : ℕ) (hr : r < pts.length) :
    vanM0 pts r pts.length = Frac.fromBI ((pts.map Point.y).getD r 0) := by
  simp only [vanM0]
  rw [if_neg (lt_irrefl pts.length), getD_map_range _ _ r hr]

theorem matQ_vanM0_coeff (pts : List Point) (r c : ℕ) (hr : r < pts.length)
    (hc : c < pts.length) :
    matQ (vanM0 pts) r c
      = (((pts.map Point.x).getD r 0 : ℤ) : ℚ) ^ (pts.length - 1 - c) := by
  rw [show matQ (vanM0 pts) r c
      = (Frac.fromBI (((pts.map Point.x).getD r 0) ^ (pts.length - 1 - c))).toRat from
    congrArg Frac.toRat (vanM0_coeff pts r c hr hc)]
  rw [Frac.toRat_fromBI]
  push_cast
  rfl

theorem matQ_vanM0_rhs (pts : List Point) (r : ℕ) (hr : r < pts.length) :
    matQ (vanM0 pts) r pts.length = (((pts.map Point.y).getD r 0 : ℤ) : ℚ) := by
  rw [show matQ (vanM0 pts) r pts.length
      = (Frac.fromBI ((pts.map Point.y).getD r 0)).toRat from
    congrArg Frac.toRat (vanM0_rhs pts r hr)]
  exact Frac.toRat_fromBI _

/-- The polynomial whose coefficient vector (highest power first, matching the
`x^m .. x^1, 1` layout of `vandermondeRow`) is a candidate solution. -/
noncomputable def solPoly (x : ℕ → ℚ) (m : ℕ) : Polynomial ℚ :=
  ∑ c in Finset.range (m + 1), Polynomial.C (x c) * Polynomial.X ^ (m - c)

theorem solPoly_eval (x : ℕ → ℚ) (m : ℕ) (t : ℚ) :
    Polynomial.eval t (solPoly x m) = ∑ c in Finset.range (m + 1), x c * t ^ (m - c) := by
  rw [solPoly, Polynomial.eval_finset_sum]
  exact Finset.sum_congr rfl fun c _ => by
    rw [Polynomial.eval_mul, Polynomial.eval_C, Polynomial.eval_pow, Polynomial.eval_X]

theorem solPoly_degree (x : ℕ → ℚ) (m : ℕ) :
    (solPoly x m).degree < ((m + 1 : ℕ) : WithBot ℕ) := by
  rw [solPoly]
  refine lt_of_le_of_lt (Polynomial.degree_sum_le _ _) ?_
  rw [Finset.sup_lt_iff (WithBot.bot_lt_coe _)]
  intro c hc
  refine lt_of_le_of_lt (Polynomial.degree_C_mul_X_pow_le _ _) ?_
  exact_mod_cast (show m - c < m + 1 by omega)

theorem solPoly_coeff (x : ℕ → ℚ) (m c0 : ℕ) (hc : c0 ≤ m) :
    (solPoly x m).coeff (m - c0) = x c0 := by
  rw [solPoly, Polynomial.finset_sum_coeff]
  have h1 : ∀ c ∈ Finset.range (m + 1),
      (Polynomial.C (x c) * Polynomial.X ^ (m - c)).coeff (m - c0)
        = if c = c0 then x c else 0 := by
    intro c hc2
    rw [Finset.mem_range] at hc2
    rw [Polynomial.coeff_C_mul, Polynomial.coeff_X_pow]
    by_cases h : c = c0
    · rw [if_pos (show m - c0 = m - c by omega), if_pos h, mul_one]
    · rw [if_neg (show ¬ m - c0 = m - c by omega), if_neg h, mul_zero]
  rw [Finset.sum_congr rfl h1, Finset.sum_ite_eq' (Finset.range (m + 1)) c0 x]
  rw [if_pos (Finset.mem_range.mpr (by omega))]

theorem solPoly_of_coeff (p : Polynomial ℚ) (m : ℕ)
    (hdeg : p.degree < ((m + 1 : ℕ) : WithBot ℕ)) :
    solPoly (fun c => p.coeff (m - c)) m = p := by
  rw [solPoly]
  have h1 : ∑ c in Finset.range (m + 1),
      Polynomial.C (p.coeff (m - c)) * Polynomial.X ^ (m - c)
      = ∑ i in Finset.range (m + 1), Polynomial.C (p.coeff i) * Polynomial.X ^ i := by
    have h2 := Finset.sum_range_reflect
      (fun i => Polynomial.C (p.coeff i) * Polynomial.X ^ i) (m + 1)
    simpa using h2
  rw [h1]
  have hnat : p.natDegree < m + 1 := by
    by_cases hp : p = 0
    · rw [hp, Polynomial.natDegree_zero]
      omega
    · exact (Polynomial.natDegree_lt_iff_degree_lt hp).mpr hdeg
  conv_rhs => rw [Polynomial.as_sum_range' p (m + 1) hnat]
  exact Finset.sum_congr rfl fun i _ => Polynomial.C_mul_X_pow_eq_monomial

/-- A vector solves the Vandermonde system iff its polynomial passes through
all the points. -/
theorem sat_vanM0_iff (pts : List Point) (hk : pts.length ≠ 0) (x : ℕ → ℚ) :
    Sat (vanM0 pts) pts.length x ↔
      ∀ r, r < pts.length →
        Polynomial.eval (((pts.map Point.x).getD r 0 : ℤ) : ℚ)
          (solPoly x (pts.length - 1))
          = (((pts.map Point.y).getD r 0 : ℤ) : ℚ) := by
  have hrow : ∀ r, r < pts.length → (SatRow (vanM0 pts) pts.length x r ↔
      Polynomial.eval (((pts.map Point.x).getD r 0 : ℤ) : ℚ)
        (solPoly x (pts.length - 1))
        = (((pts.map Point.y).getD r 0 : ℤ) : ℚ)) := by
    intro r hr
    unfold SatRow
    rw [solPoly_eval, show pts.length - 1 + 1 = pts.length by omega]
    rw [matQ_vanM0_rhs pts r hr]
    rw [show ∑ c in Finset.range pts.length, matQ (vanM0 pts) r c * x c
        = ∑ c in Finset.range pts.length,
            x c * (((pts.map Point.x).getD r 0 : ℤ) : ℚ) ^ (pts.length - 1 - c) from
      Finset.sum_congr rfl fun c hc => by
        rw [matQ_vanM0_coeff pts r c hr (Finset.mem_range.mp hc), mul_comm]]
  constructor
  · intro hs r hr
    exact (hrow r hr).mp (hs r hr)
  · intro hs r hr
    exact (hrow r hr).mpr (hs r hr)

/-- Distinct nodes make the Vandermonde solution unique. -/
theorem vanM0_sat_unique (pts : List Point) (hnd : (pts.map Point.x).Nodup)
    (hk : pts.length ≠ 0) (x x2 : ℕ → ℚ)
    (h1 : Sat (vanM0 pts) pts.length x) (h2 : Sat (vanM0 pts) pts.length x2) :
    ∀ c, c < pts.length → x c = x2 c := by
  have he1 := (sat_vanM0_iff pts hk x).mp h1
  have he2 := (sat_vanM0_iff pts hk x2).mp h2
  have hpe : solPoly x (pts.length - 1) = solPoly x2 (pts.length - 1) := by
    refine Polynomial.eq_of_degrees_lt_of_eval_index_eq (Finset.range pts.length)
      (nodupInjOn pts hnd) ?_ ?_ ?_
    · rw [Finset.card_range]
      have hd := solPoly_degree x (pts.length - 1)
      rw [show pts.length - 1 + 1 = pts.length by omega] at hd
      exact hd
    · rw [Finset.card_range]
      have hd := solPoly_degree x2 (pts.length - 1)
      rw [show pts.length - 1 + 1 = pts.length by omega] at hd
      exact hd
    · intro i hi
      rw [Finset.mem_range] at hi
      rw [he1 i hi, he2 i hi]
  intro c hc
  have hc1 : c ≤ pts.length - 1 := by omega
  rw [← solPoly_coeff x (pts.length - 1) c hc1, ← solPoly_coeff x2 (pts.length - 1) c hc1,
    hpe]

/-- The coefficients of the Lagrange interpolation polynomial solve the
Vandermonde system. -/
theorem vanM0_sat_exists (pts : List Point) (hnd : (pts.map Point.x).Nodup)
    (hk : pts.length ≠ 0) :
    Sat (vanM0 pts) pts.length (fun c =>
      (Lagrange.interpolate (Finset.range pts.length)
        (fun j => (((pts.map Point.x).getD j 0 : ℤ) : ℚ))
        (fun j => (((pts.map Point.y).getD j 0 : ℤ) : ℚ))).coeff
          (pts.length - 1 - c)) := by
  rw [sat_vanM0_iff pts hk]
  intro r hr
  have hdeg : (Lagrange.interpolate (Finset.range pts.length)
      (fun j => (((pts.map Point.x).getD j 0 : ℤ) : ℚ))
      (fun j => (((pts.map Point.y).getD j 0 : ℤ) : ℚ))).degree
        < ((pts.length - 1 + 1 : ℕ) : WithBot ℕ) := by
    have hd := Lagrange.degree_interpolate_lt
      (fun j => (((pts.map Point.y).getD j 0 : ℤ) : ℚ)) (nodupInjOn pts hnd)
    rw [Finset.card_range] at hd
    rw [show pts.length - 1 + 1 = pts.length by omega]
    exact hd
  rw [solPoly_of_coeff _ _ hdeg]
  exact Lagrange.eval_interpolate_at_node _ (nodupInjOn pts hnd)
    (Finset.mem_range.mpr hr)

theorem getLast_map_range {α : Type} (n : ℕ) (hn : n ≠ 0) (f : ℕ → α) :
    ((List.range n).map f).getLast? = some (f (n - 1)) := by
  rw [List.getLast?_eq_getElem?]
  rw [List.length_map, List.length_range]
  rw [List.getElem?_eq_getElem (by
    rw [List.length_map, List.length_range]
    omega)]
  rw [List.getElem_map, List.getElem_range]

/-- Claim C2: on any point list with pairwise-distinct `x`-coordinates whose
Lagrange-at-zero computation returns the integer `c`, the Gaussian-elimination
solver on the Vandermonde system (over the same points, highest power first)
succeeds, and the last entry `a0` of its coefficient vector is exactly the
integer `c` (stored as the reduced fraction `c/1`). -/
theorem lagrange_gauss_agree (pts : List Point) (hnd : (pts.map Point.x).Nodup)
    (hk : pts.length ≠ 0) (c : ℤ) (hL : constantViaLagrange pts = .ok c) :
    ∃ coeffs : List Frac,
      solveForIndices pts (pts.length - 1) (List.range pts.length) = .ok coeffs ∧
      ∃ a0 : Frac, coeffs.getLast? = some a0 ∧ a0.d = 1 ∧ a0.n = c := by
  classical
  obtain ⟨Mf, hfold, hzb, hud, hiff⟩ := forward_ok pts.length (vanM0 pts) _
    (vanM0_sat_exists pts hnd hk) (vanM0_sat_unique pts hnd hk)
    pts.length (le_refl pts.length)
  have hxq : Sat (vanM0 pts) pts.length
      (fun i => (backSubst Mf pts.length pts.length i).toRat) :=
    (hiff _).mpr (backSubst_sat Mf pts.length hzb hud)
  have hlast : (backSubst Mf pts.length pts.length (pts.length - 1)).toRat = (c : ℚ) := by
    have h1 := vanM0_sat_unique pts hnd hk _ _ hxq (vanM0_sat_exists pts hnd hk)
      (pts.length - 1) (by omega)
    have h2 : (backSubst Mf pts.length pts.length (pts.length - 1)).toRat
        = (Lagrange.interpolate (Finset.range pts.length)
            (fun j => (((pts.map Point.x).getD j 0 : ℤ) : ℚ))
            (fun j => (((pts.map Point.y).getD j 0 : ℤ) : ℚ))).coeff
              (pts.length - 1 - (pts.length - 1)) := h1
    rw [h2, Nat.sub_self, Polynomial.coeff_zero_eq_eval_zero]
    have h3 := constantViaLagrange_value pts hnd c hL
    rw [lagSumQ_eq_eval_interpolate] at h3
    exact h3.symm
  refine ⟨(List.range pts.length).map (backSubst Mf pts.length pts.length), ?_, ?_⟩
  · rw [solveForIndices_range pts, hfold]
    rfl
  · obtain ⟨hd1, hn⟩ := Frac.eq_intCast hlast
    exact ⟨backSubst Mf pts.length pts.length (pts.length - 1),
      getLast_map_range pts.length hk _, hd1, hn⟩

/-- Concrete instantiation of `lagrange_gauss_agree`: on `[(1,6),(2,7)]` the
Lagrange path returns `5` and the Gaussian path's last coefficient is `5/1`. -/
theorem lagrange_gauss_agree_witness :
    constantViaLagrange [⟨1, 6⟩, ⟨2, 7⟩] = .ok 5 ∧
    ∃ coeffs : List Frac,
      solveForIndices [⟨1, 6⟩, ⟨2, 7⟩] 1 (List.range 2) = .ok coeffs ∧
      ∃ a0 : Frac, coeffs.getLast? = some a0 ∧ a0.d = 1 ∧ a0.n = 5 := by
  refine ⟨by decide, ?_⟩
  exact lagrange_gauss_agree [⟨1, 6⟩, ⟨2, 7⟩] (by decide) (by decide) 5 (by decide)
